import Mathlib

set_option linter.unreachableTactic false
set_option linter.unusedTactic false
set_option linter.unnecessarySeqFocus false

/-!
Verification development for the keyword-anchored PDF text placement pipeline
(`src/processors/matching.py`, `src/components/coords.py`, `src/components/text.py`,
`src/components/page.py`, `src/processors/layout.py`, `src/processors/engines/pymupdf.py`,
`src/pdf_processor.py`).

Modelling conventions:
 - `float` coordinates, widths and thresholds are modelled as `ℚ` (the claims under
   study concern order/arithmetic facts, not rounding).
 - Python strings are Lean `String`s; per-character data from the text extractor is a
   `Character` structure mirroring the pdfplumber char dict.
 - Fallible code paths (Python exceptions such as `IndexError` from `chars[i]` or
   `ValueError` from `min([])`) are modelled by `Option`.
 - The external similarity metric `difflib.SequenceMatcher.ratio` (standard library,
   not part of this repository) is modelled by the classic Ratcliff–Obershelp
   matching-blocks ratio exactly as `difflib` computes it for short inputs:
   `2 * M / (len a + len b)` where `M` is the total size of the recursively collected
   longest matching blocks; the junk/autojunk heuristics (which only engage for
   popular elements in windows of length >= 200) are not modelled.
-/

/-! ## Python string primitives -/

/-- Python `str.strip()` whitespace test (the whitespace characters relevant here). -/
def pyIsSpace (c : Char) : Bool :=
  c = ' ' || c = '\t' || c = '\n' || c = '\r' || c = '\x0b' || c = '\x0c' ||
  c = '\u0085' || c = '\u00A0' || c = '\u1680' ||
  (0x2000 ≤ c.val && c.val ≤ 0x200A) ||
  c = '\u2028' || c = '\u2029' || c = '\u202F' || c = '\u205F' || c = '\u3000'

/-- Python `str.strip()`: drop whitespace from both ends. -/
def pyStrip (s : String) : String :=
  ⟨((s.data.dropWhile pyIsSpace).reverse.dropWhile pyIsSpace).reverse⟩

/-- Python `"".join(l)` over a list of strings. -/
def strJoin (l : List String) : String :=
  ⟨(l.map String.data).flatten⟩

/-! ## `matching.normalize_text` (src/processors/matching.py lines 13-21)

The four `str.replace` calls each replace a single character by a single character
(U+FF1A -> ':', U+3000 -> ' ', '\n' -> ' ', '\r' -> ' '), so their composition is a
character map, followed by `strip()`. -/

def normChar (c : Char) : Char :=
  if c = '：' then ':'
  else if c = '\u3000' then ' '
  else if c = '\n' then ' '
  else if c = '\r' then ' '
  else c

def normalize_text (s : String) : String :=
  pyStrip ⟨s.data.map normChar⟩

/-! ## `difflib.SequenceMatcher` model

`runEnd a b alo blo i j` is the length of the common run of matching characters
ending at positions `(i, j)` and starting no earlier than `(alo, blo)` — exactly the
value the `j2len` dictionary holds at `(i, j)` inside difflib's
`find_longest_match` main loop. -/

def runEnd (a b : List Char) (alo blo : Nat) : Nat → Nat → Nat
  | i + 1, j + 1 =>
    if a.getD (i + 1) ' ' = b.getD (j + 1) ' ' ∧ alo ≤ i + 1 ∧ blo ≤ j + 1 then
      (if alo ≤ i ∧ blo ≤ j then runEnd a b alo blo i j else 0) + 1
    else 0
  | i, j =>
    if a.getD i ' ' = b.getD j ' ' ∧ alo ≤ i ∧ blo ≤ j then 1 else 0

/-- All `(i, j)` pairs scanned by `find_longest_match`, in loop order
(`i` ascending over `[alo, ahi)`, then `j` ascending over `[blo, bhi)`). -/
def lexPairs (alo ahi blo bhi : Nat) : List (Nat × Nat) :=
  (List.range' alo (ahi - alo)).flatMap
    (fun i => (List.range' blo (bhi - blo)).map (fun j => (i, j)))

/-- One step of difflib's best-block tracking: a freshly computed run length `k`
replaces the best block only on a strict improvement (`if k > bestsize`), which makes
the first maximal block in scan order win. The block ending at `(i, j)` with length
`k` starts at `(i + 1 - k, j + 1 - k)`. -/
def flmStep (a b : List Char) (alo blo : Nat) (s : Nat × Nat × Nat) (p : Nat × Nat) :
    Nat × Nat × Nat :=
  let k := runEnd a b alo blo p.1 p.2
  if s.2.2 < k then (p.1 + 1 - k, p.2 + 1 - k, k) else s

/-- difflib `SequenceMatcher.find_longest_match` restricted to `[alo, ahi) × [blo, bhi)`
(no junk, so the junk-extension loops are no-ops). Returns `(besti, bestj, bestsize)`. -/
def findLongestMatch (a b : List Char) (alo ahi blo bhi : Nat) : Nat × Nat × Nat :=
  (lexPairs alo ahi blo bhi).foldl (flmStep a b alo blo) (alo, blo, 0)

/-- Total size of the matching blocks collected recursively by
`SequenceMatcher.get_matching_blocks` (the only datum `ratio` needs).  The recursion
is fuelled: each recursive call strictly shrinks `ahi - alo`, so fuel `ahi - alo`
(supplied by `matchSum` below) always suffices. -/
def matchSumF (a b : List Char) : Nat → Nat → Nat → Nat → Nat → Nat
  | 0, _, _, _, _ => 0
  | fuel + 1, alo, ahi, blo, bhi =>
    let r := findLongestMatch a b alo ahi blo bhi
    if r.2.2 = 0 then 0
    else
      matchSumF a b fuel alo r.1 blo r.2.1 + r.2.2 +
      matchSumF a b fuel (r.1 + r.2.2) ahi (r.2.1 + r.2.2) bhi

def matchSum (a b : List Char) (alo ahi blo bhi : Nat) : Nat :=
  matchSumF a b (ahi - alo) alo ahi blo bhi

/-- `SequenceMatcher(a=..., b=...).ratio()`: `2 * M / (len a + len b)`
(difflib `_calculate_ratio`; the degenerate empty-empty case yields `1.0`). -/
def ratioOf (a b : List Char) : ℚ :=
  if a.length + b.length = 0 then 1
  else 2 * (matchSum a b 0 a.length 0 b.length : ℚ) / ((a.length : ℚ) + (b.length : ℚ))

/-! ## Characters, windows and `matching.best_fuzzy_window` (lines 24-45) -/

structure Character where
  text : String
  x0 : ℚ
  x1 : ℚ
  top : ℚ
  bottom : ℚ
  deriving DecidableEq

instance : Inhabited Character := ⟨⟨"", 0, 0, 0, 0⟩⟩

/-- `"".join(texts[i : i + L])`. -/
def windowJoin (texts : List String) (i L : Nat) : String :=
  strJoin ((texts.drop i).take L)

/-- One step of the sliding-window maximum in `best_fuzzy_window`: state is
`(best score, best (start, end))`; an update happens only on `score > best[0]`. -/
def bfwStep (nk : List Char) (texts : List String) (L : Nat)
    (s : ℚ × Option (Nat × Nat)) (i : Nat) : ℚ × Option (Nat × Nat) :=
  let score := ratioOf nk (windowJoin texts i L).data
  if s.1 < score then (score, some (i, i + L)) else s

def best_fuzzy_window (chars : List Character) (keyword : String) (threshold : ℚ) :
    Option (Nat × Nat) :=
  let nk := normalize_text keyword
  let L := nk.length
  if L = 0 ∨ chars.isEmpty then none
  else
    let texts := chars.map (fun c => normalize_text c.text)
    let best := (List.range (texts.length + 1 - L)).foldl (bfwStep nk.data texts L) (0, none)
    if best.2.isSome ∧ threshold ≤ best.1 then best.2 else none

structure Rect where
  x0 : ℚ
  top : ℚ
  x1 : ℚ
  bottom : ℚ
  deriving DecidableEq

/-- `matching.bbox_of_chars` (lines 48-54): mins/maxes of the char boxes over
`[start, end)`.  `none` models the Python exceptions (`IndexError` when `end`
exceeds the char count, `ValueError` from `min([])` when the range is empty). -/
def bbox_of_chars (chars : List Character) (start stop : Nat) : Option Rect :=
  if stop ≤ chars.length then
    match (chars.drop start).take (stop - start) with
    | [] => none
    | c :: rest =>
      some ⟨(rest.map Character.x0).foldl min c.x0,
            (rest.map Character.top).foldl min c.top,
            (rest.map Character.x1).foldl max c.x1,
            (rest.map Character.bottom).foldl max c.bottom⟩
  else none

/-! ## Coordinate helpers (src/components/coords.py) and constants (src/variables.py) -/

def STYLE_OFFSET_X_DEFAULT : ℚ := 50
def STYLE_OFFSET_Y_DEFAULT : ℚ := 0
def CONST_PAGE_INDEX_DEFAULT : Int := 0
def CONST_FUZZY_MATCH_THRESHOLD : ℚ := 3 / 5
def CONST_CLAMP_MARGIN_DEFAULT : ℚ := 2

/-- `components.coords.adjust_coords` (lines 14-26). -/
def adjust_coords (x y offset_x offset_y : ℚ) : ℚ × ℚ :=
  (x + offset_x, y + offset_y)

/-- `components.coords.clamp_coords` (lines 29-47). -/
def clamp_coords (x y page_width page_height margin : ℚ) : ℚ × ℚ :=
  (max margin (min (page_width - margin) x), max margin (min (page_height - margin) y))

/-- `components.coords.clamp_baseline` (lines 50-77); the source defaults are
`margin = CONST_CLAMP_MARGIN_DEFAULT`, `ascent_ratio = 0.8`, `descent_ratio = 0.2`. -/
def clamp_baseline (x y_baseline page_width page_height font_size margin
    ascent_ratio descent_ratio : ℚ) : ℚ × ℚ :=
  let x_clamped := max margin (min (page_width - margin) x)
  let ascent := max 0 (font_size * ascent_ratio)
  let descent := max 0 (font_size * descent_ratio)
  let y_min := margin + descent
  let y_max := page_height - margin - ascent
  let p : ℚ × ℚ := if y_max < y_min then (margin, page_height - margin) else (y_min, y_max)
  (x_clamped, max p.1 (min p.2 y_baseline))

/-- `components.coords.right_of_bbox_baseline` (lines 98-109): anchor to the right of
the bbox, with the bbox bottom edge as the baseline-compatible y. -/
def right_of_bbox_baseline (bbox : Rect) (offset_x offset_y : ℚ) : ℚ × ℚ :=
  (bbox.x1 + offset_x, bbox.bottom + offset_y)

/-- `pdf_processor._to_reportlab_xy` (lines 93-95): flip a top-origin y to bottom-origin. -/
def to_reportlab_xy (x y_top_based page_height : ℚ) : ℚ × ℚ :=
  (x, page_height - y_top_based)

/-! ## `components.text.split_aliases` (src/components/text.py lines 65-80);
the separator default is `CONST_ALIAS_SEPARATOR = "|"`. -/

def dedupAppend (acc : List String) (t : String) : List String :=
  if t ∈ acc then acc else acc ++ [t]

/-- Python `str.split(sep)` for a one-character separator (all separators in this
code base — `"|"`, `","` — are single characters). -/
def splitOnCharGo (sep : Char) : List Char → List Char → List (List Char)
  | [], cur => [cur.reverse]
  | c :: rest, cur =>
    if c = sep then cur.reverse :: splitOnCharGo sep rest []
    else splitOnCharGo sep rest (c :: cur)

def pySplitChar (sep : Char) (s : String) : List String :=
  (splitOnCharGo sep s.data []).map (fun l => ⟨l⟩)

def split_aliases (keyword : String) : List String :=
  let raw := keyword
  let parts := if raw.data.contains '|' then pySplitChar '|' raw else [raw]
  let result := parts.foldl
    (fun acc p => let t := pyStrip p; if t = "" then acc else dedupAppend acc t) []
  if result = [] then [pyStrip raw] else result

/-! ## `components.page.parse_page_selection` (src/components/page.py lines 13-61) -/

/-- Python `int(s)` on an already-isolated token: optional sign then decimal digits
(whitespace is stripped as `int` does; exotic forms such as digit underscores are
out of scope for the inputs at hand).  `none` models `ValueError`. -/
def digitsToNat : List Char → Option Nat
  | [] => none
  | cs =>
    if cs.all Char.isDigit then
      some (cs.foldl (fun n c => n * 10 + (c.toNat - 48)) 0)
    else none

def pyInt (s : String) : Option Int :=
  match (pyStrip s).data with
  | '+' :: rest => (digitsToNat rest).map Int.ofNat
  | '-' :: rest => (digitsToNat rest).map (fun n => -(n : Int))
  | cs => (digitsToNat cs).map Int.ofNat

def pyToLower (s : String) : String :=
  ⟨s.data.map Char.toLower⟩

/-- The `_add` closure of `parse_page_selection`: 1-based shift, bounds check, append. -/
def pageAdd (totalPages : Nat) (oneBased : Bool) (res : List Nat) (idx : Int) : List Nat :=
  let idx := if oneBased then idx - 1 else idx
  if idx < 0 ∨ (totalPages : Int) ≤ idx then res else res ++ [idx.toNat]

/-- `range(start_i, end_i + 1)` over `Int`. -/
def intRangeIncl (si ei : Int) : List Int :=
  (List.range (ei + 1 - si).toNat).map (fun k => si + k)

def parse_page_selection (selection : String) (totalPages : Nat) (oneBased : Bool) :
    List Nat :=
  if selection = "" then []
  else
    let sel := pyToLower (pyStrip selection)
    if sel = "all" then List.range totalPages
    else
      let res := (pySplitChar ',' sel).foldl
        (fun res part =>
          let part := pyStrip part
          if part = "" then res
          else if part.data.contains '-' then
            -- part.split("-", 1): split at the first hyphen only
            let ss : String := ⟨part.data.takeWhile (fun c => c ≠ '-')⟩
            let es : String := ⟨(part.data.dropWhile (fun c => c ≠ '-')).drop 1⟩
            match pyInt ss, pyInt es with
            | some si, some ei =>
              let se := if ei < si then (ei, si) else (si, ei)
              (intRangeIncl se.1 se.2).foldl (pageAdd totalPages oneBased) res
            | _, _ => res
          else
            match pyInt part with
            | some i => pageAdd totalPages oneBased res i
            | none => res)
        []
      -- sorted(set(result)); every recorded index lies in [0, totalPages)
      (List.range totalPages).filter (fun i => i ∈ res)

/-! ## `processors.layout.wrap_text_lines` (src/processors/layout.py lines 14-48) -/

/-- Python `str.splitlines()` line-boundary characters (`\r\n` pairs are handled in
`splitlinesGo`). -/
def pyIsLineBreak (c : Char) : Bool :=
  c = '\n' || c = '\r' || c = '\x0b' || c = '\x0c' ||
  c = '\x1c' || c = '\x1d' || c = '\x1e' || c = '\u0085' || c = '\u2028' || c = '\u2029'

def splitlinesGo : List Char → List Char → List (List Char)
  | [], cur => if cur.isEmpty then [] else [cur.reverse]
  | c :: rest, cur =>
    if pyIsLineBreak c then
      match rest with
      | [] => [cur.reverse]
      | c2 :: rest2 =>
        if c = '\r' ∧ c2 = '\n' then cur.reverse :: splitlinesGo rest2 []
        else cur.reverse :: splitlinesGo (c2 :: rest2) []
    else splitlinesGo rest (c :: cur)

/-- Python `str.splitlines()`. -/
def pySplitlines (s : String) : List String :=
  (splitlinesGo s.data []).map (fun l => ⟨l⟩)

/-- The width of a trial line as computed in the wrap loop (layout.py lines 36-41):
`pdfmetrics.stringWidth` (the external font-metric collaborator, `none` when the
lookup raises) with the uniform fallback `len(trial) * font_size * 0.6`. -/
def effectiveWidth (stringWidth : String → Option ℚ) (fontSize : ℚ) (trial : String) : ℚ :=
  match stringWidth trial with
  | some w => w
  | none => (trial.length : ℚ) * fontSize * (3 / 5)

/-- One character step of the greedy wrap loop (layout.py lines 36-46): accept the
character onto the current line if the trial width fits (or the line is empty),
otherwise flush the current line and start a new one with the character. -/
def wrapStep (widthOf : String → ℚ) (maxWidth : ℚ) (st : List String × String)
    (ch : Char) : List String × String :=
  let trial := st.2.push ch
  if widthOf trial ≤ maxWidth ∨ st.2 = "" then (st.1, trial)
  else (st.1 ++ [st.2], ⟨[ch]⟩)

/-- The greedy per-raw-line wrap loop (layout.py lines 33-47), parameterised by the
trial-width function; the trailing `wrapped.append(current)` is the final append. -/
def wrapOneLine (widthOf : String → ℚ) (maxWidth : ℚ) (raw : String) : List String :=
  let fin := raw.data.foldl (wrapStep widthOf maxWidth) ([], "")
  fin.1 ++ [fin.2]

/-- `wrap_text_lines` generic in the trial-width function. -/
def wrapCore (widthOf : String → ℚ) (text : String) (maxWidth : Option ℚ) : List String :=
  let rawLines := let ls := pySplitlines text; if ls.isEmpty then [""] else ls
  match maxWidth with
  | none => rawLines
  | some mw => if mw ≤ 0 then rawLines else rawLines.flatMap (wrapOneLine widthOf mw)

/-- `processors.layout.wrap_text_lines` (the `font_name` argument is absorbed into the
`stringWidth` collaborator). -/
def wrap_text_lines (stringWidth : String → Option ℚ) (fontSize : ℚ) (text : String)
    (maxWidth : Option ℚ) : List String :=
  wrapCore (effectiveWidth stringWidth fontSize) text maxWidth

/-- Modelled from the spec: the per-character width rule the spec attributes to the
metric-unavailable fallback — `char_count × font_size × 0.6` for ASCII-range
characters and `char_count × font_size × 1.0` for non-ASCII characters (this is the
rule of `components.text.estimate_text_width`, stated here to compare against what
`wrap_text_lines` actually does). -/
def claimedFallbackWidth (fontSize : ℚ) (trial : String) : ℚ :=
  trial.data.foldl
    (fun w c => w + (if c.toNat ≤ 127 then fontSize * (3 / 5) else fontSize)) 0

/-! ## `PDFProcessor` data and keyword search (src/pdf_processor.py) -/

/-- One page as seen by the planner: pdfplumber page geometry plus its char stream. -/
structure PageData where
  width : ℚ
  height : ℚ
  chars : List Character
  deriving DecidableEq

instance : Inhabited PageData := ⟨⟨0, 0, []⟩⟩

structure KeywordHit where
  page_index : Int
  bbox : Rect
  anchor_x : ℚ
  anchor_y : ℚ
  deriving DecidableEq

/-- `pdf_processor.DrawText` (lines 105-120). -/
structure DrawText where
  text : String
  x : ℚ
  y : ℚ
  max_width : Option ℚ
  line_spacing : Option ℚ
  deriving DecidableEq

/-- One `per_key_overrides` entry; absent dict keys are `none`
(defaults applied at the use sites, exactly as the `ov.get(...)` calls do). -/
structure KeyOverride where
  page : Option Int
  offset_x : Option ℚ
  offset_y : Option ℚ
  max_width : Option ℚ
  line_spacing : Option ℚ
  aliases : Option (List String)
  deriving DecidableEq

def emptyOverride : KeyOverride := ⟨none, none, none, none, none, none⟩

/-- `PDFProcessor.find_keyword_coordinates` (lines 209-251), restricted to its pure
planning content: the document is the already-extracted page list; I/O validation is
outside the model.  `none` is returned for an out-of-range page index or a failed
fuzzy match; the inner `bbox_of_chars` `none` branch models a raised exception and is
unreachable (see the window-bounds theorem for claim C9). -/
def findKeywordHit (doc : List PageData) (keyword : String) (pageIndex : Int)
    (fuzzyThreshold : ℚ) : Option KeywordHit :=
  if pageIndex < 0 ∨ (doc.length : Int) ≤ pageIndex then none
  else
    let page := doc.getD pageIndex.toNat default
    match best_fuzzy_window page.chars keyword fuzzyThreshold with
    | none => none
    | some (start, stop) =>
      match bbox_of_chars page.chars start stop with
      | none => none
      | some bbox =>
        let anchor := right_of_bbox_baseline bbox STYLE_OFFSET_X_DEFAULT STYLE_OFFSET_Y_DEFAULT
        let rl := to_reportlab_xy anchor.1 anchor.2 page.height
        some ⟨pageIndex, bbox, rl.1, rl.2⟩

/-! ## `PDFProcessor.fill_by_keywords` planning (lines 256-421) -/

/-- `_resolve_override_for_key` (lines 311-340): exact key hit first, then the first
override entry (in dict order) whose `aliases` list intersects the key's aliases. -/
def resolveOverrideForKey (k : String) (overrides : List (String × KeyOverride)) :
    Option String × KeyOverride :=
  match overrides.find? (fun p => p.1 = k) with
  | some p => (some p.1, p.2)
  | none =>
    let kAliases := split_aliases k
    match overrides.find? (fun p =>
        match p.2.aliases with
        | some al => kAliases.any (fun ka => al.contains ka)
        | none => false) with
    | some p => (some p.1, p.2)
    | none => (none, emptyOverride)

/-- Candidate keyword list (lines 353-369): the key's own aliases, then configured
aliases not already present, then the canonical name if absent. -/
def buildCandidates (key : String) (ov : KeyOverride) (canonKey : Option String) :
    List String :=
  let c1 := split_aliases key
  let c2 := match ov.aliases with
    | some al => al.foldl (fun acc a => if a ∈ acc then acc else acc ++ [a]) c1
    | none => c1
  match canonKey with
  | some ck => if ck ∈ c2 then c2 else c2 ++ [ck]
  | none => c2

/-- The page list searched for one key (lines 373-390): an explicit per-key override
page wins; otherwise the global page selection, defaulting to the single default page. -/
def candidatePagesFor (ov : KeyOverride) (selectedGlobal : Option (List Nat))
    (defaultPage : Int) : List Int :=
  match ov.page with
  | some p => [p]
  | none =>
    match selectedGlobal with
    | some l => l.map Int.ofNat
    | none => [defaultPage]

/-- Page-then-candidate search order with first-hit cut (lines 374-390). -/
def firstHitPages (doc : List PageData) (candidates : List String) (pages : List Int)
    (thr : ℚ) : Option (Int × KeywordHit) :=
  pages.findSome? (fun p =>
    (candidates.findSome? (fun cand => findKeywordHit doc cand p thr)).map (fun h => (p, h)))

/-- Accumulated planning state: the draw plan as ordered `(page, item)` pairs plus the
fill statistics (lines 304-309, 411-419). -/
structure FillAcc where
  plan : List (Int × DrawText)
  total : Nat
  matched : List String
  missing : List String
  deriving DecidableEq

def emptyFillAcc : FillAcc := ⟨[], 0, [], []⟩

/-- The per-key body of the `fill_by_keywords` loop (lines 342-406). -/
def processKey (doc : List PageData) (selectedGlobal : Option (List Nat))
    (overrides : List (String × KeyOverride)) (thr : ℚ) (acc : FillAcc)
    (kv : String × String) : FillAcc :=
  let key := kv.1
  let value := kv.2
  if value = "" then acc
  else
    let resolved := resolveOverrideForKey key overrides
    let canonKey := resolved.1
    let ov := resolved.2
    let pageIndex := ov.page.getD CONST_PAGE_INDEX_DEFAULT
    let offsetX := ov.offset_x.getD STYLE_OFFSET_X_DEFAULT
    let offsetY := ov.offset_y.getD STYLE_OFFSET_Y_DEFAULT
    let candidates := buildCandidates key ov canonKey
    let searchResult := firstHitPages doc candidates
      (candidatePagesFor ov selectedGlobal pageIndex) thr
    match searchResult with
    | none =>
      { plan := acc.plan, total := acc.total + 1,
        matched := acc.matched, missing := acc.missing ++ [key] }
    | some (p, hit) =>
      let xy := adjust_coords hit.anchor_x hit.anchor_y
        (offsetX - STYLE_OFFSET_X_DEFAULT) (offsetY - STYLE_OFFSET_Y_DEFAULT)
      { plan := acc.plan ++ [(p, ⟨value, xy.1, xy.2, ov.max_width, ov.line_spacing⟩)],
        total := acc.total + 1,
        matched := acc.matched ++ [key], missing := acc.missing }

/-- Global page selection (lines 290-294): only a non-empty `pages` string activates a
selection; a selection that parses to no valid page falls back to all pages. -/
def resolveSelectedPages (pages : Option String) (totalPages : Nat) :
    Option (List Nat) :=
  match pages with
  | none => none
  | some s =>
    if s = "" then none
    else
      let sel := parse_page_selection s totalPages true
      some (if sel = [] then List.range totalPages else sel)

/-- The planning portion of `PDFProcessor.fill_by_keywords` (lines 282-421): page
selection, threshold normalisation, per-key resolution loop, draw plan and stats.
Rendering/merging I/O (lines 423-463) is outside this model. -/
def fillByKeywordsPlan (doc : List PageData) (keywordToValue : List (String × String))
    (perKeyOverrides : List (String × KeyOverride)) (pages : Option String)
    (fuzzyThreshold : Option ℚ) : FillAcc :=
  let totalPages := doc.length
  let selectedGlobal := resolveSelectedPages pages totalPages
  let thr := fuzzyThreshold.getD CONST_FUZZY_MATCH_THRESHOLD
  keywordToValue.foldl (processKey doc selectedGlobal perKeyOverrides thr) emptyFillAcc

/-! ## Engine dispatch and the direct-embed fallback
(src/processors/engines/pymupdf.py lines 25-136, src/pdf_processor.py lines 434-457,
495-536).  Filesystem and drawing effects are abstracted: what remains is the
font-file suitability test, the embed attempt outcome, and which engine string is
reported back (`self.last_engine_used`). -/

structure FontFileInfo where
  pathExists : Bool
  suffix : String
  deriving DecidableEq

/-- The guard `font_file and font_file.exists() and font_file.suffix.lower() in
{".ttf", ".otf"}` (pymupdf.py line 50). -/
def suitableFontFile (f : Option FontFileInfo) : Bool :=
  match f with
  | none => false
  | some fi => fi.pathExists && (pyToLower fi.suffix = ".ttf" || pyToLower fi.suffix = ".otf")

/-- `fill_with_pymupdf`: which engine string the call returns.  `insertFontOk` is the
outcome of the external `doc.insert_font` attempt; with no suitable font file the
attempt is never made, `fontname_to_use` stays `None`, and the ReportLab
overlay-and-merge path returns `"reportlab"` (lines 49-90); only a successful embed
reaches the direct-draw path returning `"pymupdf"` (lines 92-134). -/
def fill_with_pymupdf_engine (fontFile : Option FontFileInfo) (insertFontOk : Bool) :
    String :=
  let fontnameToUse : Option Unit :=
    if suitableFontFile fontFile then (if insertFontOk then some () else none) else none
  match fontnameToUse with
  | none => "reportlab"
  | some _ => "pymupdf"

/-- `fill_by_keywords` engine dispatch (pdf_processor.py lines 434-457): what
`self.last_engine_used` holds after the call. -/
def engineUsedAfterFill (engine : String) (fontFile : Option FontFileInfo)
    (insertFontOk : Bool) : String :=
  if engine = "pymupdf" then fill_with_pymupdf_engine fontFile insertFontOk
  else if engine = "raster" then "raster"
  else "reportlab"

/-! ## Generic fold invariant -/

theorem foldl_invariant {α β : Type} (f : α → β → α) (P : α → Prop) :
    ∀ (l : List β) (init : α), P init → (∀ s x, x ∈ l → P s → P (f s x)) →
      P (l.foldl f init) := by
  intro l
  induction l with
  | nil => intro init h0 _; simpa using h0
  | cons hd tl ih =>
    intro init h0 hstep
    simp only [List.foldl_cons]
    exact ih (f init hd) (hstep init hd (List.mem_cons_self hd tl) h0)
      (fun s x hx hs => hstep s x (List.mem_cons_of_mem hd hx) hs)

/-! ## Run-length lemmas -/

theorem runEnd_le_left (a b : List Char) (alo blo : Nat) :
    ∀ i j, runEnd a b alo blo i j ≤ i + 1 - alo := by
  intro i
  induction i with
  | zero =>
    intro j
    cases j with
    | zero =>
      simp only [runEnd]
      split
      · rename_i h
        obtain ⟨-, h1, h2⟩ := h
        first
        | omega
        | (have hz : alo = 0 := Nat.le_zero.mp h1
           omega)
        | (have hz : blo = 0 := Nat.le_zero.mp h2
           omega)
        | (have hz1 : alo = 0 := Nat.le_zero.mp h1
           have hz2 : blo = 0 := Nat.le_zero.mp h2
           omega)
      · omega
    | succ j' =>
      simp only [runEnd]
      split
      · rename_i h
        obtain ⟨-, h1, h2⟩ := h
        first
        | omega
        | (have hz : alo = 0 := Nat.le_zero.mp h1
           omega)
        | (have hz : blo = 0 := Nat.le_zero.mp h2
           omega)
        | (have hz1 : alo = 0 := Nat.le_zero.mp h1
           have hz2 : blo = 0 := Nat.le_zero.mp h2
           omega)
      · omega
  | succ i' ih =>
    intro j
    cases j with
    | zero =>
      simp only [runEnd]
      split
      · rename_i h
        obtain ⟨-, h1, h2⟩ := h
        first
        | omega
        | (have hz : alo = 0 := Nat.le_zero.mp h1
           omega)
        | (have hz : blo = 0 := Nat.le_zero.mp h2
           omega)
        | (have hz1 : alo = 0 := Nat.le_zero.mp h1
           have hz2 : blo = 0 := Nat.le_zero.mp h2
           omega)
      · omega
    | succ j' =>
      simp only [runEnd]
      split
      · rename_i h
        obtain ⟨-, h1, h2⟩ := h
        split
        · have := ih j'
          omega
        · omega
      · omega

theorem runEnd_le_right (a b : List Char) (alo blo : Nat) :
    ∀ i j, runEnd a b alo blo i j ≤ j + 1 - blo := by
  intro i
  induction i with
  | zero =>
    intro j
    cases j with
    | zero =>
      simp only [runEnd]
      split
      · rename_i h
        obtain ⟨-, h1, h2⟩ := h
        first
        | omega
        | (have hz : alo = 0 := Nat.le_zero.mp h1
           omega)
        | (have hz : blo = 0 := Nat.le_zero.mp h2
           omega)
        | (have hz1 : alo = 0 := Nat.le_zero.mp h1
           have hz2 : blo = 0 := Nat.le_zero.mp h2
           omega)
      · omega
    | succ j' =>
      simp only [runEnd]
      split
      · rename_i h
        obtain ⟨-, h1, h2⟩ := h
        first
        | omega
        | (have hz : alo = 0 := Nat.le_zero.mp h1
           omega)
        | (have hz : blo = 0 := Nat.le_zero.mp h2
           omega)
        | (have hz1 : alo = 0 := Nat.le_zero.mp h1
           have hz2 : blo = 0 := Nat.le_zero.mp h2
           omega)
      · omega
  | succ i' ih =>
    intro j
    cases j with
    | zero =>
      simp only [runEnd]
      split
      · rename_i h
        obtain ⟨-, h1, h2⟩ := h
        first
        | omega
        | (have hz : alo = 0 := Nat.le_zero.mp h1
           omega)
        | (have hz : blo = 0 := Nat.le_zero.mp h2
           omega)
        | (have hz1 : alo = 0 := Nat.le_zero.mp h1
           have hz2 : blo = 0 := Nat.le_zero.mp h2
           omega)
      · omega
    | succ j' =>
      simp only [runEnd]
      split
      · rename_i h
        obtain ⟨-, h1, h2⟩ := h
        split
        · have := ih j'
          omega
        · omega
      · omega

theorem runEnd_pos_bounds (a b : List Char) (alo blo : Nat) :
    ∀ i j, runEnd a b alo blo i j ≠ 0 → alo ≤ i ∧ blo ≤ j := by
  intro i j
  cases i with
  | zero =>
    cases j with
    | zero =>
      simp only [runEnd]
      split
      · rename_i h; exact fun _ => ⟨h.2.1, h.2.2⟩
      · simp
    | succ j' =>
      simp only [runEnd]
      split
      · rename_i h; exact fun _ => ⟨h.2.1, h.2.2⟩
      · simp
  | succ i' =>
    cases j with
    | zero =>
      simp only [runEnd]
      split
      · rename_i h; exact fun _ => ⟨h.2.1, h.2.2⟩
      · simp
    | succ j' =>
      simp only [runEnd]
      split
      · rename_i h; exact fun _ => ⟨h.2.1, h.2.2⟩
      · simp

theorem runEnd_matches (a b : List Char) (alo blo : Nat) :
    ∀ i j t, t < runEnd a b alo blo i j →
      a.getD (i - t) ' ' = b.getD (j - t) ' ' := by
  intro i
  induction i with
  | zero =>
    intro j t ht
    cases j with
    | zero =>
      simp only [runEnd] at ht
      split at ht
      · rename_i h
        interval_cases t
        simpa using h.1
      · omega
    | succ j' =>
      simp only [runEnd] at ht
      split at ht
      · rename_i h
        interval_cases t
        simpa using h.1
      · omega
  | succ i' ih =>
    intro j t ht
    cases j with
    | zero =>
      simp only [runEnd] at ht
      split at ht
      · rename_i h
        interval_cases t
        simpa using h.1
      · omega
    | succ j' =>
      simp only [runEnd] at ht
      split at ht
      · rename_i h
        cases t with
        | zero => simpa using h.1
        | succ t' =>
          split at ht
          · have hrec := ih j' t' (by omega)
            have h1 : i' + 1 - (t' + 1) = i' - t' := by omega
            have h2 : j' + 1 - (t' + 1) = j' - t' := by omega
            rw [h1, h2]
            exact hrec
          · omega
      · omega

/-! ## find_longest_match lemmas -/

theorem lexPairs_mem {alo ahi blo bhi : Nat} {p : Nat × Nat} :
    p ∈ lexPairs alo ahi blo bhi ↔
      (alo ≤ p.1 ∧ p.1 < ahi) ∧ (blo ≤ p.2 ∧ p.2 < bhi) := by
  obtain ⟨i, j⟩ := p
  simp only [lexPairs, List.mem_flatMap, List.mem_map, List.mem_range', Prod.mk.injEq]
  constructor
  · rintro ⟨i', hi', j', hj', rfl, rfl⟩
    omega
  · rintro ⟨⟨hi1, hi2⟩, hj1, hj2⟩
    exact ⟨i, ⟨i - alo, by omega, by omega⟩, j, ⟨j - blo, by omega, by omega⟩, rfl, rfl⟩

/-- The invariant difflib's best-block state satisfies: a zero-size state is the
initial one; a positive-size state is an in-range matching block. -/
def flmInv (a b : List Char) (alo ahi blo bhi : Nat) (s : Nat × Nat × Nat) : Prop :=
  (s.2.2 = 0 → s = (alo, blo, 0)) ∧
  (s.2.2 ≠ 0 →
    alo ≤ s.1 ∧ s.1 + s.2.2 ≤ ahi ∧ blo ≤ s.2.1 ∧ s.2.1 + s.2.2 ≤ bhi ∧
    ∀ t, t < s.2.2 → a.getD (s.1 + t) ' ' = b.getD (s.2.1 + t) ' ')

theorem flmStep_preserves (a b : List Char) (alo ahi blo bhi : Nat)
    (s : Nat × Nat × Nat) (p : Nat × Nat) (hp : p ∈ lexPairs alo ahi blo bhi)
    (hs : flmInv a b alo ahi blo bhi s) :
    flmInv a b alo ahi blo bhi (flmStep a b alo blo s p) := by
  obtain ⟨⟨hp1, hp2⟩, hp3, hp4⟩ := lexPairs_mem.mp hp
  simp only [flmStep]
  split
  · rename_i hlt
    set k := runEnd a b alo blo p.1 p.2 with hk
    have hkpos : k ≠ 0 := by omega
    have hle1 := runEnd_le_left a b alo blo p.1 p.2
    have hle2 := runEnd_le_right a b alo blo p.1 p.2
    rw [← hk] at hle1 hle2
    constructor
    · intro h0
      dsimp only at h0
      exact absurd h0 hkpos
    · intro _
      dsimp only
      refine ⟨by omega, by omega, by omega, by omega, ?_⟩
      intro t ht
      have hm := runEnd_matches a b alo blo p.1 p.2 (k - 1 - t) (by omega)
      have e1 : p.1 + 1 - k + t = p.1 - (k - 1 - t) := by omega
      have e2 : p.2 + 1 - k + t = p.2 - (k - 1 - t) := by omega
      rw [e1, e2]
      exact hm
  · exact hs

theorem flm_inv (a b : List Char) (alo ahi blo bhi : Nat) :
    flmInv a b alo ahi blo bhi (findLongestMatch a b alo ahi blo bhi) := by
  unfold findLongestMatch
  apply foldl_invariant (P := flmInv a b alo ahi blo bhi)
  · exact ⟨fun _ => rfl, fun h => absurd rfl h⟩
  · intro s x hx hs
    exact flmStep_preserves a b alo ahi blo bhi s x hx hs

theorem flmStep_mono (a b : List Char) (alo blo : Nat) (s : Nat × Nat × Nat)
    (p : Nat × Nat) : s.2.2 ≤ (flmStep a b alo blo s p).2.2 := by
  simp only [flmStep]
  split
  · rename_i h; dsimp only; omega
  · exact le_rfl

theorem flmStep_ge_run (a b : List Char) (alo blo : Nat) (s : Nat × Nat × Nat)
    (p : Nat × Nat) : runEnd a b alo blo p.1 p.2 ≤ (flmStep a b alo blo s p).2.2 := by
  simp only [flmStep]
  split
  · rename_i h; dsimp only; omega
  · rename_i h; omega

theorem foldl_flm_mono (a b : List Char) (alo blo : Nat) :
    ∀ (l : List (Nat × Nat)) (s : Nat × Nat × Nat),
      s.2.2 ≤ (l.foldl (flmStep a b alo blo) s).2.2 := by
  intro l
  induction l with
  | nil => intro s; exact le_rfl
  | cons hd tl ih =>
    intro s
    calc s.2.2 ≤ (flmStep a b alo blo s hd).2.2 := flmStep_mono a b alo blo s hd
    _ ≤ _ := ih (flmStep a b alo blo s hd)

theorem foldl_flm_ge_run (a b : List Char) (alo blo : Nat) :
    ∀ (l : List (Nat × Nat)) (s : Nat × Nat × Nat) (p : Nat × Nat), p ∈ l →
      runEnd a b alo blo p.1 p.2 ≤ (l.foldl (flmStep a b alo blo) s).2.2 := by
  intro l
  induction l with
  | nil => intro s p hp; exact absurd hp (List.not_mem_nil p)
  | cons hd tl ih =>
    intro s p hp
    rcases List.mem_cons.mp hp with h | h
    · subst h
      calc runEnd a b alo blo p.1 p.2 ≤ (flmStep a b alo blo s p).2.2 :=
            flmStep_ge_run a b alo blo s p
      _ ≤ _ := foldl_flm_mono a b alo blo tl _
    · exact ih (flmStep a b alo blo s hd) p h

theorem flm_ge_run (a b : List Char) (alo ahi blo bhi : Nat) (p : Nat × Nat)
    (hp : p ∈ lexPairs alo ahi blo bhi) :
    runEnd a b alo blo p.1 p.2 ≤ (findLongestMatch a b alo ahi blo bhi).2.2 :=
  foldl_flm_ge_run a b alo blo _ _ p hp

/-! ## matchSum lemmas -/

theorem matchSumF_empty_left (a b : List Char) (fuel alo blo bhi : Nat) :
    matchSumF a b fuel alo alo blo bhi = 0 := by
  cases fuel with
  | zero => rfl
  | succ f =>
    have hflm : findLongestMatch a b alo alo blo bhi = (alo, blo, 0) := by
      unfold findLongestMatch lexPairs
      simp
    simp [matchSumF, hflm]

theorem matchSumF_le_left (a b : List Char) :
    ∀ fuel alo ahi blo bhi, matchSumF a b fuel alo ahi blo bhi ≤ ahi - alo := by
  intro fuel
  induction fuel with
  | zero => intro alo ahi blo bhi; simp [matchSumF]
  | succ f ih =>
    intro alo ahi blo bhi
    simp only [matchSumF]
    split
    · omega
    · rename_i hk
      have hinv := (flm_inv a b alo ahi blo bhi).2 hk
      obtain ⟨hb1, hb2, hb3, hb4, -⟩ := hinv
      have hL := ih alo (findLongestMatch a b alo ahi blo bhi).1 blo
        (findLongestMatch a b alo ahi blo bhi).2.1
      have hR := ih ((findLongestMatch a b alo ahi blo bhi).1 +
          (findLongestMatch a b alo ahi blo bhi).2.2) ahi
        ((findLongestMatch a b alo ahi blo bhi).2.1 +
          (findLongestMatch a b alo ahi blo bhi).2.2) bhi
      omega

theorem matchSumF_le_right (a b : List Char) :
    ∀ fuel alo ahi blo bhi, matchSumF a b fuel alo ahi blo bhi ≤ bhi - blo := by
  intro fuel
  induction fuel with
  | zero => intro alo ahi blo bhi; simp [matchSumF]
  | succ f ih =>
    intro alo ahi blo bhi
    simp only [matchSumF]
    split
    · omega
    · rename_i hk
      have hinv := (flm_inv a b alo ahi blo bhi).2 hk
      obtain ⟨hb1, hb2, hb3, hb4, -⟩ := hinv
      have hL := ih alo (findLongestMatch a b alo ahi blo bhi).1 blo
        (findLongestMatch a b alo ahi blo bhi).2.1
      have hR := ih ((findLongestMatch a b alo ahi blo bhi).1 +
          (findLongestMatch a b alo ahi blo bhi).2.2) ahi
        ((findLongestMatch a b alo ahi blo bhi).2.1 +
          (findLongestMatch a b alo ahi blo bhi).2.2) bhi
      omega

theorem runEnd_diag (a : List Char) : ∀ i, runEnd a a 0 0 i i = i + 1 := by
  intro i
  induction i with
  | zero => simp [runEnd]
  | succ i' ih => simp [runEnd, ih]

theorem flm_self (a : List Char) (n : Nat) (hpos : 0 < n) :
    findLongestMatch a a 0 n 0 n = (0, 0, n) := by
  have hmem : ((n - 1, n - 1) : Nat × Nat) ∈ lexPairs 0 n 0 n := by
    apply lexPairs_mem.mpr
    exact ⟨⟨by omega, by omega⟩, by omega, by omega⟩
  have hge := flm_ge_run a a 0 n 0 n (n - 1, n - 1) hmem
  rw [runEnd_diag a (n - 1)] at hge
  have hk : (findLongestMatch a a 0 n 0 n).2.2 ≠ 0 := by omega
  have hinv := (flm_inv a a 0 n 0 n).2 hk
  obtain ⟨hb1, hb2, hb3, hb4, -⟩ := hinv
  rcases hE : findLongestMatch a a 0 n 0 n with ⟨x, y, z⟩
  rw [hE] at hge hb1 hb2 hb3 hb4
  dsimp only at hge hb1 hb2 hb3 hb4
  have hx : x = 0 := by omega
  have hy : y = 0 := by omega
  have hz : z = n := by omega
  rw [hx, hy, hz]

theorem matchSum_self (a : List Char) : matchSum a a 0 a.length 0 a.length = a.length := by
  unfold matchSum
  rcases Nat.eq_zero_or_pos a.length with h | h
  · rw [h]; rfl
  · obtain ⟨f, hf⟩ : ∃ f, a.length - 0 = f + 1 := ⟨a.length - 1, by omega⟩
    rw [hf]
    simp only [matchSumF, flm_self a a.length h]
    rw [if_neg (by omega)]
    simp only [Nat.zero_add]
    rw [matchSumF_empty_left, matchSumF_empty_left]
    omega

theorem ratioOf_self (a : List Char) : ratioOf a a = 1 := by
  unfold ratioOf
  split
  · rfl
  · rename_i h
    rw [matchSum_self]
    have hne : (a.length : ℚ) + (a.length : ℚ) ≠ 0 := by
      have : a.length ≠ 0 := by omega
      positivity
    field_simp
    ring

theorem ratioOf_le_one (a b : List Char) : ratioOf a b ≤ 1 := by
  unfold ratioOf
  split
  · exact le_rfl
  · rename_i h
    have hM1 : matchSum a b 0 a.length 0 b.length ≤ a.length := by
      have := matchSumF_le_left a b (a.length - 0) 0 a.length 0 b.length
      unfold matchSum
      omega
    have hM2 : matchSum a b 0 a.length 0 b.length ≤ b.length := by
      have := matchSumF_le_right a b (a.length - 0) 0 a.length 0 b.length
      unfold matchSum
      omega
    have hpos : (0 : ℚ) < (a.length : ℚ) + (b.length : ℚ) := by
      have h2 : 0 < a.length + b.length := Nat.pos_of_ne_zero h
      exact_mod_cast h2
    rw [div_le_one hpos]
    have h3 : 2 * matchSum a b 0 a.length 0 b.length ≤ a.length + b.length := by omega
    exact_mod_cast h3

/-! ## Slice lemmas and the exact-match characterisation of the ratio -/

def listSlice (l : List Char) (i j : Nat) : List Char :=
  (l.drop i).take (j - i)

theorem listSlice_append (l : List Char) (i m j : Nat) (h1 : i ≤ m) (h2 : m ≤ j) :
    listSlice l i j = listSlice l i m ++ listSlice l m j := by
  unfold listSlice
  have hsum : j - i = (m - i) + (j - m) := by omega
  rw [hsum, List.take_add]
  congr 1
  rw [List.drop_drop]
  have him : i + (m - i) = m := by omega
  rw [him]

theorem listSlice_nil (l : List Char) (i j : Nat) (h : j ≤ i) : listSlice l i j = [] := by
  unfold listSlice
  have : j - i = 0 := by omega
  rw [this, List.take_zero]

theorem listSlice_full (l : List Char) : listSlice l 0 l.length = l := by
  unfold listSlice
  simp

theorem slice_eq_of_matches (a b : List Char) (bi bj k : Nat)
    (ha : bi + k ≤ a.length) (hb : bj + k ≤ b.length)
    (hm : ∀ t, t < k → a.getD (bi + t) ' ' = b.getD (bj + t) ' ') :
    listSlice a bi (bi + k) = listSlice b bj (bj + k) := by
  unfold listSlice
  have hka : bi + k - bi = k := by omega
  have hkb : bj + k - bj = k := by omega
  rw [hka, hkb]
  apply List.ext_getElem
  · simp only [List.length_take, List.length_drop]
    omega
  · intro n h1 h2
    rw [List.getElem_take .., List.getElem_drop .., List.getElem_take .., List.getElem_drop ..]
    have hna : bi + n < a.length := by
      simp only [List.length_take, List.length_drop] at h1
      omega
    have hnb : bj + n < b.length := by
      simp only [List.length_take, List.length_drop] at h2
      omega
    have := hm n (by simp only [List.length_take, List.length_drop] at h1; omega)
    rwa [List.getD_eq_getElem a ' ' hna, List.getD_eq_getElem b ' ' hnb] at this

theorem matchSumF_full (a b : List Char) :
    ∀ fuel alo ahi blo bhi, alo ≤ ahi → blo ≤ bhi → ahi ≤ a.length → bhi ≤ b.length →
      matchSumF a b fuel alo ahi blo bhi = ahi - alo →
      matchSumF a b fuel alo ahi blo bhi = bhi - blo →
      listSlice a alo ahi = listSlice b blo bhi := by
  intro fuel
  induction fuel with
  | zero =>
    intro alo ahi blo bhi hA hB hA2 hB2 h5 h6
    simp only [matchSumF] at h5 h6
    rw [listSlice_nil a alo ahi (by omega), listSlice_nil b blo bhi (by omega)]
  | succ f ih =>
    intro alo ahi blo bhi hA hB hA2 hB2 h5 h6
    simp only [matchSumF] at h5 h6
    by_cases hk : (findLongestMatch a b alo ahi blo bhi).2.2 = 0
    · rw [if_pos hk] at h5 h6
      rw [listSlice_nil a alo ahi (by omega), listSlice_nil b blo bhi (by omega)]
    · rw [if_neg hk] at h5 h6
      obtain ⟨hb1, hb2, hb3, hb4, hmatch⟩ := (flm_inv a b alo ahi blo bhi).2 hk
      set r := findLongestMatch a b alo ahi blo bhi with hr
      have hL1 := matchSumF_le_left a b f alo r.1 blo r.2.1
      have hL2 := matchSumF_le_right a b f alo r.1 blo r.2.1
      have hR1 := matchSumF_le_left a b f (r.1 + r.2.2) ahi (r.2.1 + r.2.2) bhi
      have hR2 := matchSumF_le_right a b f (r.1 + r.2.2) ahi (r.2.1 + r.2.2) bhi
      have heqL1 : matchSumF a b f alo r.1 blo r.2.1 = r.1 - alo := by omega
      have heqL2 : matchSumF a b f alo r.1 blo r.2.1 = r.2.1 - blo := by omega
      have heqR1 : matchSumF a b f (r.1 + r.2.2) ahi (r.2.1 + r.2.2) bhi = ahi - (r.1 + r.2.2) := by omega
      have heqR2 : matchSumF a b f (r.1 + r.2.2) ahi (r.2.1 + r.2.2) bhi = bhi - (r.2.1 + r.2.2) := by omega
      have hsliceL := ih alo r.1 blo r.2.1 (by omega) (by omega) (by omega) (by omega) heqL1 heqL2
      have hsliceR := ih (r.1 + r.2.2) ahi (r.2.1 + r.2.2) bhi (by omega) (by omega) hA2 hB2 heqR1 heqR2
      have hsliceM := slice_eq_of_matches a b r.1 r.2.1 r.2.2 (by omega) (by omega) hmatch
      calc listSlice a alo ahi
          = listSlice a alo r.1 ++ listSlice a r.1 (r.1 + r.2.2) ++ listSlice a (r.1 + r.2.2) ahi := by
            rw [← listSlice_append a alo r.1 (r.1 + r.2.2) (by omega) (by omega),
              ← listSlice_append a alo (r.1 + r.2.2) ahi (by omega) (by omega)]
        _ = listSlice b blo r.2.1 ++ listSlice b r.2.1 (r.2.1 + r.2.2) ++ listSlice b (r.2.1 + r.2.2) bhi := by
            rw [hsliceL, hsliceM, hsliceR]
        _ = listSlice b blo bhi := by
            rw [← listSlice_append b blo r.2.1 (r.2.1 + r.2.2) (by omega) (by omega),
              ← listSlice_append b blo (r.2.1 + r.2.2) bhi (by omega) (by omega)]

theorem ratioOf_eq_one (a b : List Char) (h : ratioOf a b = 1) : a = b := by
  unfold ratioOf at h
  split at h
  · rename_i h0
    have ha : a.length = 0 := by omega
    have hb : b.length = 0 := by omega
    rw [List.length_eq_zero.mp ha, List.length_eq_zero.mp hb]
  · rename_i h0
    have hpos : ((a.length : ℚ) + (b.length : ℚ)) ≠ 0 := by
      have h2 : 0 < a.length + b.length := Nat.pos_of_ne_zero h0
      have : (0 : ℚ) < (a.length : ℚ) + (b.length : ℚ) := by exact_mod_cast h2
      exact ne_of_gt this
    rw [div_eq_one_iff_eq hpos] at h
    have hNat : 2 * matchSum a b 0 a.length 0 b.length = a.length + b.length := by
      exact_mod_cast h
    have hM1 : matchSum a b 0 a.length 0 b.length ≤ a.length := by
      have := matchSumF_le_left a b (a.length - 0) 0 a.length 0 b.length
      unfold matchSum
      omega
    have hM2 : matchSum a b 0 a.length 0 b.length ≤ b.length := by
      have := matchSumF_le_right a b (a.length - 0) 0 a.length 0 b.length
      unfold matchSum
      omega
    have hfull := matchSumF_full a b (a.length - 0) 0 a.length 0 b.length
      (by omega) (by omega) le_rfl le_rfl
      (by unfold matchSum at hNat hM1 hM2; omega)
      (by unfold matchSum at hNat hM1 hM2; omega)
    rwa [listSlice_full, listSlice_full] at hfull

/-! ## best_fuzzy_window fold lemmas -/

/-- Invariant of the sliding-window maximum: the stored score belongs to the stored
window, which is well-formed. -/
def bfwFoldInv (nk : List Char) (texts : List String) (L : Nat)
    (s : ℚ × Option (Nat × Nat)) : Prop :=
  (s.2 = none → s.1 = 0) ∧
  ∀ w : Nat × Nat, s.2 = some w →
    w.2 = w.1 + L ∧ w.1 + L ≤ texts.length ∧
    s.1 = ratioOf nk (windowJoin texts w.1 L).data

theorem bfwFold_inv (nk : List Char) (texts : List String) (L : Nat) :
    bfwFoldInv nk texts L
      ((List.range (texts.length + 1 - L)).foldl (bfwStep nk texts L) (0, none)) := by
  apply foldl_invariant
  · exact ⟨fun _ => rfl, fun w hw => Option.noConfusion hw⟩
  · intro s x hx hs
    have hxL : x + L ≤ texts.length := by
      have := List.mem_range.mp hx
      omega
    unfold bfwFoldInv at hs ⊢
    simp only [bfwStep]
    split
    · refine ⟨fun h => Option.noConfusion h, ?_⟩
      intro w hw
      dsimp only at hw
      injection hw with hw
      subst hw
      exact ⟨rfl, hxL, rfl⟩
    · exact hs

theorem bfwStep_fst_mono (nk : List Char) (texts : List String) (L : Nat)
    (s : ℚ × Option (Nat × Nat)) (i : Nat) : s.1 ≤ (bfwStep nk texts L s i).1 := by
  simp only [bfwStep]
  split
  · rename_i h; exact le_of_lt h
  · exact le_rfl

theorem bfwStep_fst_ge (nk : List Char) (texts : List String) (L : Nat)
    (s : ℚ × Option (Nat × Nat)) (i : Nat) :
    ratioOf nk (windowJoin texts i L).data ≤ (bfwStep nk texts L s i).1 := by
  simp only [bfwStep]
  split
  · exact le_rfl
  · rename_i h; exact le_of_not_lt h

theorem bfwFold_fst_mono (nk : List Char) (texts : List String) (L : Nat) :
    ∀ (l : List Nat) (s : ℚ × Option (Nat × Nat)),
      s.1 ≤ (l.foldl (bfwStep nk texts L) s).1 := by
  intro l
  induction l with
  | nil => intro s; exact le_rfl
  | cons hd tl ih =>
    intro s
    calc s.1 ≤ (bfwStep nk texts L s hd).1 := bfwStep_fst_mono nk texts L s hd
    _ ≤ _ := ih (bfwStep nk texts L s hd)

theorem bfwFold_fst_ge (nk : List Char) (texts : List String) (L : Nat) :
    ∀ (l : List Nat) (s : ℚ × Option (Nat × Nat)) (i : Nat), i ∈ l →
      ratioOf nk (windowJoin texts i L).data ≤ (l.foldl (bfwStep nk texts L) s).1 := by
  intro l
  induction l with
  | nil => intro s i hi; exact absurd hi (List.not_mem_nil i)
  | cons hd tl ih =>
    intro s i hi
    rcases List.mem_cons.mp hi with h | h
    · subst h
      calc ratioOf nk (windowJoin texts i L).data ≤ (bfwStep nk texts L s i).1 :=
            bfwStep_fst_ge nk texts L s i
      _ ≤ _ := bfwFold_fst_mono nk texts L tl _
    · exact ih (bfwStep nk texts L s hd) i h

theorem string_ext {s t : String} (h : s.data = t.data) : s = t := by
  cases s
  cases t
  exact congrArg String.mk h

/-- Core window-shape fact: a returned window is `[s, s + L)` with `s + L` within the
char count and `L` the normalised keyword length (positive). -/
theorem bfw_window_bounds (chars : List Character) (kw : String) (thr : ℚ)
    (s e : Nat) (h : best_fuzzy_window chars kw thr = some (s, e)) :
    e = s + (normalize_text kw).length ∧
    s + (normalize_text kw).length ≤ chars.length ∧
    (normalize_text kw).length ≠ 0 := by
  simp only [best_fuzzy_window] at h
  split at h
  · cases h
  · rename_i hguard
    push_neg at hguard
    split at h
    · rename_i hcond
      have hinv := bfwFold_inv (normalize_text kw).data
        (chars.map fun c => normalize_text c.text) (normalize_text kw).length
      obtain ⟨h1, h2, -⟩ := hinv.2 (s, e) h
      refine ⟨h1, ?_, ?_⟩
      · rw [List.length_map] at h2
        exact h2
      · intro hL
        exact hguard.1 hL
    · cases h

/-- Core exact-hit fact: if some window of the per-character-normalised stream
concatenates exactly to the (non-empty) normalised keyword, then for any threshold
at most 1 the matcher returns a window whose normalised concatenation is the
normalised keyword. -/
theorem bfw_exact_core (chars : List Character) (kw : String) (thr : ℚ)
    (hthr : thr ≤ 1) (hnk : (normalize_text kw).length ≠ 0) (i : Nat)
    (hiL : i + (normalize_text kw).length ≤ chars.length)
    (hwin : windowJoin (chars.map fun c => normalize_text c.text) i
      (normalize_text kw).length = normalize_text kw) :
    ∃ s, best_fuzzy_window chars kw thr = some (s, s + (normalize_text kw).length) ∧
      s + (normalize_text kw).length ≤ chars.length ∧
      windowJoin (chars.map fun c => normalize_text c.text) s
        (normalize_text kw).length = normalize_text kw := by
  have hne : chars.isEmpty = false := by
    have : 0 < chars.length := by omega
    cases chars with
    | nil => simp at this
    | cons c cs => rfl
  have hguard : ¬((normalize_text kw).length = 0 ∨ chars.isEmpty = true) := by
    rw [hne]
    simp [hnk]
  simp only [best_fuzzy_window, hne, hnk]
  rw [if_neg (by simp)]
  set nk := normalize_text kw with hnkdef
  set texts := chars.map fun c => normalize_text c.text with htexts
  set L := nk.length with hL
  set best := (List.range (texts.length + 1 - L)).foldl (bfwStep nk.data texts L) (0, none)
    with hbest
  have hlen : texts.length = chars.length := by rw [htexts, List.length_map]
  have hmem : i ∈ List.range (texts.length + 1 - L) := by
    rw [List.mem_range]
    omega
  have hscore : ratioOf nk.data (windowJoin texts i L).data = 1 := by
    rw [hwin]
    exact ratioOf_self nk.data
  have hge : 1 ≤ best.1 := by
    rw [hbest, ← hscore]
    exact bfwFold_fst_ge nk.data texts L _ _ i hmem
  have hinv := bfwFold_inv nk.data texts L
  rw [← hbest] at hinv
  rcases hb2 : best.2 with - | w
  · exfalso
    have := hinv.1 hb2
    rw [this] at hge
    exact absurd hge (by norm_num)
  · obtain ⟨hw1, hw2, hw3⟩ := hinv.2 w hb2
    have hle : best.1 ≤ 1 := by
      rw [hw3]
      exact ratioOf_le_one nk.data (windowJoin texts w.1 L).data
    have hbest1 : best.1 = 1 := le_antisymm hle hge
    have hwscore : ratioOf nk.data (windowJoin texts w.1 L).data = 1 := by
      rw [← hw3, hbest1]
    have hweq : windowJoin texts w.1 L = nk :=
      (string_ext (ratioOf_eq_one nk.data (windowJoin texts w.1 L).data hwscore)).symm
    rw [if_pos ⟨rfl, by rw [hbest1]; exact hthr⟩]
    refine ⟨w.1, ?_, by omega, hweq⟩
    rw [← hw1]

/-! ## bbox_of_chars safety -/

theorem bbox_of_chars_isSome (chars : List Character) (s e : Nat)
    (h1 : s < e) (h2 : e ≤ chars.length) : (bbox_of_chars chars s e).isSome := by
  unfold bbox_of_chars
  rw [if_pos h2]
  have hpos : 0 < ((chars.drop s).take (e - s)).length := by
    simp only [List.length_take, List.length_drop]
    omega
  cases hM : (chars.drop s).take (e - s) with
  | nil => rw [hM] at hpos; simp at hpos
  | cons c rest => rfl

/-! ## Keyword-hit helper for a single-page document -/

theorem findKeywordHit_of_window (w h : ℚ) (chars : List Character) (kw : String)
    (thr : ℚ) (hthr : thr ≤ 1) (hnk : (normalize_text kw).length ≠ 0) (i : Nat)
    (hiL : i + (normalize_text kw).length ≤ chars.length)
    (hwin : windowJoin (chars.map fun c => normalize_text c.text) i
      (normalize_text kw).length = normalize_text kw) :
    (findKeywordHit [⟨w, h, chars⟩] kw 0 thr).isSome := by
  obtain ⟨s, hbfw, hbound, -⟩ := bfw_exact_core chars kw thr hthr hnk i hiL hwin
  unfold findKeywordHit
  rw [if_neg (by norm_num)]
  have hpage : ([⟨w, h, chars⟩] : List PageData).getD (0 : Int).toNat default
      = ⟨w, h, chars⟩ := rfl
  rw [hpage]
  dsimp only
  rw [hbfw]
  dsimp only
  have hbbox := bbox_of_chars_isSome chars s (s + (normalize_text kw).length)
    (by omega) hbound
  obtain ⟨r, hr⟩ := Option.isSome_iff_exists.mp hbbox
  rw [hr]
  rfl

/- Batteries marks the `Rat` field operations `@[irreducible]`, which blocks
`decide` on concrete score computations; restore semireducibility for this
development's concrete evaluations. -/
attribute [local semireducible] Rat.mul Rat.inv Rat.add Rat.sub

/-! ## Claim theorems: matcher properties -/

/-- C9: whenever `best_fuzzy_window` returns a window `(start, end)`, the window is
non-empty, lies inside the character list, its width is the normalised keyword
length, and `bbox_of_chars` on that window succeeds (indexes in range, min/max over
non-empty sequences). -/
theorem C9_window_bounds_safe (chars : List Character) (kw : String) (thr : ℚ)
    (s e : Nat) (h : best_fuzzy_window chars kw thr = some (s, e)) :
    s < e ∧ e ≤ chars.length ∧ e - s = (normalize_text kw).length ∧
      (bbox_of_chars chars s e).isSome := by
  obtain ⟨h1, h2, h3⟩ := bfw_window_bounds chars kw thr s e h
  have hse : s < e := by omega
  have hee : e ≤ chars.length := by omega
  exact ⟨hse, hee, by omega, bbox_of_chars_isSome chars s e hse hee⟩

theorem C9_witness :
    0 < 1 ∧ 1 ≤ ([⟨"a", 0, 1, 0, 1⟩] : List Character).length ∧
      1 - 0 = (normalize_text "a").length ∧
      (bbox_of_chars [⟨"a", 0, 1, 0, 1⟩] 0 1).isSome :=
  C9_window_bounds_safe [⟨"a", 0, 1, 0, 1⟩] "a" (1 / 2) 0 1 (by decide)

/-- C3: raising the threshold can only shrink the set of matched keywords — for any
fixed character stream and `t1 < t2`, every keyword matched at `t2` is matched at
`t1` (the sliding-window maximum does not depend on the threshold, which is only
compared against the final best score). -/
theorem C3_threshold_monotonicity (chars : List Character) (t1 t2 : ℚ) (h : t1 < t2) :
    {kw : String | (best_fuzzy_window chars kw t2).isSome} ⊆
      {kw : String | (best_fuzzy_window chars kw t1).isSome} := by
  intro kw hkw
  simp only [Set.mem_setOf_eq] at hkw ⊢
  simp only [best_fuzzy_window] at hkw ⊢
  split at hkw
  · simp at hkw
  · rename_i hg
    rw [if_neg hg]
    split at hkw
    · rename_i hc
      rw [if_pos ⟨hc.1, le_of_lt (lt_of_lt_of_le h hc.2)⟩]
      exact hc.1
    · simp at hkw

theorem C3_witness :
    (1 : ℚ) / 2 < 3 / 4 ∧
      ({kw : String | (best_fuzzy_window [] kw (3 / 4)).isSome} ⊆
        {kw : String | (best_fuzzy_window [] kw (1 / 2)).isSome}) :=
  ⟨by norm_num, C3_threshold_monotonicity [] (1 / 2) (3 / 4) (by norm_num)⟩

/-- C2 (amended): if some length-`L` window of the page's per-character-normalised
text stream (`L` = normalised keyword length, positive) concatenates exactly to the
normalised keyword, then `best_fuzzy_window` at any threshold at most `1` returns a
hit, the normalised concatenation of the characters in the returned window equals
the normalised keyword, and `find_keyword_coordinates` on the page finds a hit.
(The unamended claim, with the window hypothesis replaced by verbatim presence of
the raw keyword characters, fails — see the counterexample.) -/
theorem C2_find_keyword_exact_window (w h : ℚ) (chars : List Character) (kw : String)
    (thr : ℚ) (hthr : thr ≤ 1) (hnk : (normalize_text kw).length ≠ 0)
    (hwin : ∃ i, i + (normalize_text kw).length ≤ chars.length ∧
      windowJoin (chars.map fun c => normalize_text c.text) i
        (normalize_text kw).length = normalize_text kw) :
    (∃ s, best_fuzzy_window chars kw thr = some (s, s + (normalize_text kw).length) ∧
      windowJoin (chars.map fun c => normalize_text c.text) s
        (normalize_text kw).length = normalize_text kw) ∧
    (findKeywordHit [⟨w, h, chars⟩] kw 0 thr).isSome := by
  obtain ⟨i, hiL, hijoin⟩ := hwin
  obtain ⟨s, hbfw, hbound, hjoin⟩ := bfw_exact_core chars kw thr hthr hnk i hiL hijoin
  exact ⟨⟨s, hbfw, hjoin⟩,
    findKeywordHit_of_window w h chars kw thr hthr hnk i hiL hijoin⟩

theorem C2_witness :
    ((1 : ℚ) ≤ 1 ∧ (normalize_text "N:").length ≠ 0 ∧
      windowJoin (([⟨"N", 0, 10, 0, 12⟩, ⟨":", 10, 14, 0, 12⟩] : List Character).map
        (fun c => normalize_text c.text)) 0 (normalize_text "N:").length
        = normalize_text "N:") ∧
    (∃ s, best_fuzzy_window [⟨"N", 0, 10, 0, 12⟩, ⟨":", 10, 14, 0, 12⟩] "N:" 1
        = some (s, s + (normalize_text "N:").length) ∧
      windowJoin (([⟨"N", 0, 10, 0, 12⟩, ⟨":", 10, 14, 0, 12⟩] : List Character).map
        (fun c => normalize_text c.text)) s (normalize_text "N:").length
        = normalize_text "N:") ∧
    (findKeywordHit [⟨100, 200, [⟨"N", 0, 10, 0, 12⟩, ⟨":", 10, 14, 0, 12⟩]⟩] "N:" 0 1).isSome :=
  ⟨⟨by norm_num, by decide, by decide⟩,
    C2_find_keyword_exact_window 100 200 [⟨"N", 0, 10, 0, 12⟩, ⟨":", 10, 14, 0, 12⟩]
      "N:" 1 (by norm_num) (by decide) ⟨0, by decide, by decide⟩⟩

/-- C2 counterexample: the keyword `"a b"` appears verbatim and contiguously in the
character stream (chars `"a"`, `" "`, `"b"`), yet at threshold `1.0 ≤ 1.0` no hit is
returned: per-character normalisation strips the interior space character to the
empty string, so the window concatenation `"ab"` scores `4/5 < 1` against the
normalised keyword `"a b"`. -/
theorem C2_cex_space_desync :
    ([⟨"a", 0, 1, 0, 1⟩, ⟨" ", 1, 2, 0, 1⟩, ⟨"b", 2, 3, 0, 1⟩] : List Character).map
        Character.text = ["a", " ", "b"] ∧
    "a b".data = ['a', ' ', 'b'] ∧
    best_fuzzy_window [⟨"a", 0, 1, 0, 1⟩, ⟨" ", 1, 2, 0, 1⟩, ⟨"b", 2, 3, 0, 1⟩]
      "a b" 1 = none := by
  refine ⟨by decide, by decide, by decide⟩

/-! ## Claim theorems: clamping (C4) -/

/-- C4 counterexample: the claim's bounds fail as stated.
(a) With `page_width = 1`, `margin = 10` the x-interval is inverted and the clamped
`x = 10` exceeds `page_width - margin = -9`.
(b) With a negative `font_size = -10`, `page_height = 10`, `margin = 19/2` the
claim's non-degeneracy condition `margin + 0.2*fs <= page_height - margin - 0.8*fs`
holds (`15/2 <= 17/2`), yet the clamped `y = 19/2` exceeds the claimed upper bound
`page_height - margin - 0.8*fs = 17/2` (the code clamps ascent/descent at `0`, the
claim does not). -/
theorem C4_cex_bounds :
    (¬(clamp_baseline 0 0 1 100 10 10 (4 / 5) (1 / 5)).1 ≤ 1 - 10) ∧
    ((10 : ℚ) + (-10) * (1 / 5) ≤ 10 - 19 / 2 - (-10) * (4 / 5) ∧
      ¬(clamp_baseline 0 0 100 10 (-10) (19 / 2) (4 / 5) (1 / 5)).2 ≤
        10 - 19 / 2 - (-10) * (4 / 5)) := by
  refine ⟨by norm_num [clamp_baseline], by norm_num, by norm_num [clamp_baseline]⟩

/-- C4 (amended): for every input with `0 ≤ font_size` and `margin ≤ page_width -
margin`, the output of `clamp_baseline` (at the source's default ascent/descent
ratios 0.8/0.2) satisfies `margin ≤ x' ≤ page_width - margin`; and whenever
`margin + descent ≤ page_height - margin - ascent` (with `ascent = font_size * 0.8`,
`descent = font_size * 0.2`) it satisfies
`margin + descent ≤ y' ≤ page_height - margin - ascent`. -/
theorem C4_clamp_baseline_bounds (x y pw ph fs margin : ℚ)
    (hfs : 0 ≤ fs) (hx : margin ≤ pw - margin) :
    (margin ≤ (clamp_baseline x y pw ph fs margin (4 / 5) (1 / 5)).1 ∧
      (clamp_baseline x y pw ph fs margin (4 / 5) (1 / 5)).1 ≤ pw - margin) ∧
    (margin + fs * (1 / 5) ≤ ph - margin - fs * (4 / 5) →
      margin + fs * (1 / 5) ≤ (clamp_baseline x y pw ph fs margin (4 / 5) (1 / 5)).2 ∧
      (clamp_baseline x y pw ph fs margin (4 / 5) (1 / 5)).2 ≤ ph - margin - fs * (4 / 5)) := by
  unfold clamp_baseline
  have hasc : max 0 (fs * (4 / 5)) = fs * (4 / 5) := max_eq_right (by positivity)
  have hdesc : max 0 (fs * (1 / 5)) = fs * (1 / 5) := max_eq_right (by positivity)
  dsimp only
  rw [hasc, hdesc]
  constructor
  · constructor
    · exact le_max_left margin _
    · exact max_le hx (min_le_left _ _)
  · intro hnd
    rw [if_neg (by push_neg; linarith)]
    dsimp only
    constructor
    · exact le_max_left _ _
    · exact max_le (by linarith) (min_le_left _ _)

theorem C4_witness :
    ((0 : ℚ) ≤ 12 ∧ (2 : ℚ) ≤ 612 - 2) ∧
    ((2 ≤ (clamp_baseline 30 40 612 792 12 2 (4 / 5) (1 / 5)).1 ∧
        (clamp_baseline 30 40 612 792 12 2 (4 / 5) (1 / 5)).1 ≤ 612 - 2) ∧
      ((2 : ℚ) + 12 * (1 / 5) ≤ 792 - 2 - 12 * (4 / 5) →
        2 + 12 * (1 / 5) ≤ (clamp_baseline 30 40 612 792 12 2 (4 / 5) (1 / 5)).2 ∧
        (clamp_baseline 30 40 612 792 12 2 (4 / 5) (1 / 5)).2 ≤ 792 - 2 - 12 * (4 / 5))) :=
  ⟨⟨by norm_num, by norm_num⟩,
    C4_clamp_baseline_bounds 30 40 612 792 12 2 (by norm_num) (by norm_num)⟩

/-! ## Claim theorems: wrap fallback width (C6) -/

/-- C6 counterexample: with the metric unavailable, `wrap_text_lines` keeps
`"中中"` (two non-ASCII chars, `font_size = 10`) on one line at `max_width = 13`
because its fallback width is `2 × 10 × 0.6 = 12 ≤ 13`, whereas the claimed
per-character rule (1.0 × font_size for non-ASCII) gives width `20 > 13` and wraps
into two lines. -/
theorem C6_cex_uniform_fallback :
    wrap_text_lines (fun _ => none) 10 "中中" (some 13) = ["中中"] ∧
    wrapCore (claimedFallbackWidth 10) "中中" (some 13) = ["中", "中"] ∧
    ("中中" : String) ≠ "中" := by
  refine ⟨by decide, by decide, by decide⟩

/-- C6 (amended): when the font-metric lookup is unavailable, `wrap_text_lines`
approximates the width of a candidate line as `char_count × font_size × 0.6`
uniformly — for ASCII-range and non-ASCII characters alike: it behaves exactly as
the generic greedy wrap with that uniform width rule. -/
theorem C6_fallback_width_uniform (fs : ℚ) (text : String) (maxWidth : Option ℚ) :
    wrap_text_lines (fun _ => none) fs text maxWidth =
      wrapCore (fun trial => (trial.length : ℚ) * fs * (3 / 5)) text maxWidth := by
  unfold wrap_text_lines
  congr 1

/-! ## Claim theorems: direct-embed fallback reporting (C7) -/

/-- C7: when the direct-embed (`"pymupdf"`) backend is selected but no suitable font
file is available for embedding, the rendering falls through the ReportLab
overlay-and-merge path and the reported executed backend is `"reportlab"`, never
`"pymupdf"` — regardless of how a hypothetical embed attempt would have gone. -/
theorem C7_no_font_falls_back (fontFile : Option FontFileInfo) (insertFontOk : Bool)
    (hfont : suitableFontFile fontFile = false) :
    engineUsedAfterFill "pymupdf" fontFile insertFontOk = "reportlab" ∧
    engineUsedAfterFill "pymupdf" fontFile insertFontOk ≠ "pymupdf" := by
  unfold engineUsedAfterFill fill_with_pymupdf_engine
  rw [if_pos rfl, hfont]
  simp

theorem C7_witness :
    suitableFontFile none = false ∧
    (engineUsedAfterFill "pymupdf" none true = "reportlab" ∧
      engineUsedAfterFill "pymupdf" none true ≠ "pymupdf") :=
  ⟨rfl, C7_no_font_falls_back none true rfl⟩

/-! ## Claim theorems: vacuous page selection searches all pages (C10) -/

/-- C10: if the `pages` argument is a non-empty string that parses to zero valid page
indices, the global selection falls back to all pages, so a keyword without an
explicit per-key page override is searched on every page of the document (not on no
pages, and not only on the default page). -/
theorem C10_vacuous_selection_all_pages (ov : KeyOverride) (s : String)
    (totalPages : Nat) (defaultPage : Int) (hpage : ov.page = none) (hs : s ≠ "")
    (hparse : parse_page_selection s totalPages true = []) :
    resolveSelectedPages (some s) totalPages = some (List.range totalPages) ∧
    candidatePagesFor ov (resolveSelectedPages (some s) totalPages) defaultPage =
      (List.range totalPages).map Int.ofNat := by
  have hres : resolveSelectedPages (some s) totalPages = some (List.range totalPages) := by
    simp only [resolveSelectedPages]
    rw [if_neg hs, hparse]
    simp
  refine ⟨hres, ?_⟩
  rw [hres]
  unfold candidatePagesFor
  rw [hpage]

theorem C10_witness :
    (emptyOverride.page = none ∧ ("99" : String) ≠ "" ∧
      parse_page_selection "99" 2 true = []) ∧
    (resolveSelectedPages (some "99") 2 = some (List.range 2) ∧
      candidatePagesFor emptyOverride (resolveSelectedPages (some "99") 2) 0 =
        (List.range 2).map Int.ofNat) :=
  ⟨⟨rfl, by decide, by decide⟩,
    C10_vacuous_selection_all_pages emptyOverride "99" 2 0 rfl (by decide) (by decide)⟩

/-! ## Fill-loop accounting (C8) -/

/-- Each key either is skipped (empty value), or contributes exactly one missing
entry, or contributes exactly one draw item and one matched entry. -/
theorem processKey_shape (doc : List PageData) (selg : Option (List Nat))
    (ovs : List (String × KeyOverride)) (thr : ℚ) (acc : FillAcc)
    (kv : String × String) :
    (kv.2 = "" ∧ processKey doc selg ovs thr acc kv = acc) ∨
    (kv.2 ≠ "" ∧
      (processKey doc selg ovs thr acc kv =
        ⟨acc.plan, acc.total + 1, acc.matched, acc.missing ++ [kv.1]⟩ ∨
      ∃ item, processKey doc selg ovs thr acc kv =
        ⟨acc.plan ++ [item], acc.total + 1, acc.matched ++ [kv.1], acc.missing⟩)) := by
  by_cases hv : kv.2 = ""
  · left
    refine ⟨hv, ?_⟩
    unfold processKey
    rw [if_pos hv]
  · right
    refine ⟨hv, ?_⟩
    unfold processKey
    rw [if_neg hv]
    dsimp only
    split
    · left
      rfl
    · right
      exact ⟨_, rfl⟩

theorem perm_shift (A B C : List String) (k : String) :
    ((A ++ [k]) ++ B ++ C).Perm (A ++ B ++ (k :: C)) := by
  have h1 : (A ++ [k]) ++ B ++ C = A ++ ([k] ++ (B ++ C)) := by
    simp [List.append_assoc]
  have h2 : A ++ B ++ (k :: C) = A ++ (B ++ k :: C) := by
    simp [List.append_assoc]
  rw [h1, h2]
  exact List.Perm.append_left A (@List.perm_middle _ k B C).symm

theorem fill_fold_stats (doc : List PageData) (selg : Option (List Nat))
    (ovs : List (String × KeyOverride)) (thr : ℚ) :
    ∀ (kvs : List (String × String)) (acc : FillAcc),
      (kvs.foldl (processKey doc selg ovs thr) acc).plan.length + acc.matched.length =
        (kvs.foldl (processKey doc selg ovs thr) acc).matched.length + acc.plan.length ∧
      (kvs.foldl (processKey doc selg ovs thr) acc).matched.length +
          (kvs.foldl (processKey doc selg ovs thr) acc).missing.length + acc.total =
        (kvs.foldl (processKey doc selg ovs thr) acc).total +
          acc.matched.length + acc.missing.length ∧
      ((kvs.foldl (processKey doc selg ovs thr) acc).matched ++
          (kvs.foldl (processKey doc selg ovs thr) acc).missing).Perm
        (acc.matched ++ acc.missing ++ (kvs.filter fun kv => kv.2 ≠ "").map Prod.fst) := by
  intro kvs
  induction kvs with
  | nil =>
    intro acc
    simp only [List.foldl_nil]
    refine ⟨by omega, by omega, by simp⟩
  | cons kv kvs' ih =>
    intro acc
    simp only [List.foldl_cons]
    obtain ⟨ih1, ih2, ih3⟩ := ih (processKey doc selg ovs thr acc kv)
    rcases processKey_shape doc selg ovs thr acc kv with ⟨hv, heq⟩ | ⟨hv, heq | ⟨item, heq⟩⟩
    · rw [heq] at ih1 ih2 ih3 ⊢
      refine ⟨ih1, ih2, ?_⟩
      have hf : (kv :: kvs').filter (fun p => p.2 ≠ "") = kvs'.filter (fun p => p.2 ≠ "") := by
        simp [List.filter_cons, hv]
      rw [hf]
      exact ih3
    · rw [heq] at ih1 ih2 ih3 ⊢
      dsimp only at ih1 ih2 ih3
      simp only [List.length_append, List.length_singleton] at ih2
      refine ⟨by omega, by omega, ?_⟩
      have hf : (kv :: kvs').filter (fun p => p.2 ≠ "") =
          kv :: kvs'.filter (fun p => p.2 ≠ "") := by
        simp [List.filter_cons, hv]
      rw [hf]
      simp only [List.map_cons]
      refine ih3.trans ?_
      exact List.Perm.of_eq (by simp)
    · rw [heq] at ih1 ih2 ih3 ⊢
      dsimp only at ih1 ih2 ih3
      simp only [List.length_append, List.length_singleton] at ih1 ih2
      refine ⟨by omega, by omega, ?_⟩
      have hf : (kv :: kvs').filter (fun p => p.2 ≠ "") =
          kv :: kvs'.filter (fun p => p.2 ≠ "") := by
        simp [List.filter_cons, hv]
      rw [hf]
      simp only [List.map_cons]
      refine ih3.trans ?_
      exact perm_shift acc.matched acc.missing _ kv.1

/-- C8: after any `fill_by_keywords` planning run, the number of `DrawItem`s across
all pages equals the number of matched keys (each matched key contributes exactly
one item, no key more than one), and the matched and missing key lists together are
a permutation of the input keys with non-empty values (each considered key lands in
exactly one of the two). -/
theorem C8_fill_stats_invariant (doc : List PageData) (kvs : List (String × String))
    (ovs : List (String × KeyOverride)) (pages : Option String)
    (thr : Option ℚ) :
    (fillByKeywordsPlan doc kvs ovs pages thr).plan.length =
      (fillByKeywordsPlan doc kvs ovs pages thr).matched.length ∧
    (fillByKeywordsPlan doc kvs ovs pages thr).matched.length +
        (fillByKeywordsPlan doc kvs ovs pages thr).missing.length =
      (fillByKeywordsPlan doc kvs ovs pages thr).total ∧
    ((fillByKeywordsPlan doc kvs ovs pages thr).matched ++
        (fillByKeywordsPlan doc kvs ovs pages thr).missing).Perm
      ((kvs.filter fun kv => kv.2 ≠ "").map Prod.fst) := by
  unfold fillByKeywordsPlan
  dsimp only
  obtain ⟨h1, h2, h3⟩ := fill_fold_stats doc (resolveSelectedPages pages doc.length)
    ovs (thr.getD CONST_FUZZY_MATCH_THRESHOLD) kvs emptyFillAcc
  simp only [emptyFillAcc, List.length_nil, List.nil_append] at h1 h2 h3 ⊢
  exact ⟨by omega, by omega, h3⟩

/-! ## Wrap lemmas (C5) -/

theorem push_data (s : String) (c : Char) : (s.push c).data = s.data ++ [c] := rfl

theorem wrapFold_data (w : String → ℚ) (mw : ℚ) :
    ∀ (cs : List Char) (acc : List String) (cur : String),
      (((cs.foldl (wrapStep w mw) (acc, cur)).1 ++
          [(cs.foldl (wrapStep w mw) (acc, cur)).2]).map String.data).flatten =
        ((acc ++ [cur]).map String.data).flatten ++ cs := by
  intro cs
  induction cs with
  | nil => intro acc cur; simp
  | cons c cs' ih =>
    intro acc cur
    simp only [List.foldl_cons]
    have h := ih (wrapStep w mw (acc, cur) c).1 (wrapStep w mw (acc, cur) c).2
    simp only [Prod.mk.eta] at h
    rw [h]
    have hstep : (((wrapStep w mw (acc, cur) c).1 ++ [(wrapStep w mw (acc, cur) c).2]).map
        String.data).flatten = ((acc ++ [cur]).map String.data).flatten ++ [c] := by
      simp only [wrapStep]
      split
      · simp [push_data, List.append_assoc]
      · simp [List.append_assoc]
    rw [hstep, List.append_assoc]
    rfl

theorem wrapOneLine_data (w : String → ℚ) (mw : ℚ) (raw : String) :
    ((wrapOneLine w mw raw).map String.data).flatten = raw.data := by
  unfold wrapOneLine
  dsimp only
  rw [wrapFold_data w mw raw.data [] ""]
  simp

theorem splitlinesGo_flatten_aux :
    ∀ (n : Nat) (cs cur : List Char), cs.length ≤ n →
      (splitlinesGo cs cur).flatten =
        cur.reverse ++ cs.filter (fun c => !pyIsLineBreak c) := by
  intro n
  induction n with
  | zero =>
    intro cs cur hlen
    have : cs = [] := List.length_eq_zero.mp (by omega)
    subst this
    simp only [splitlinesGo]
    split
    · rename_i hcur
      simp [List.isEmpty_iff.mp hcur]
    · simp
  | succ n ih =>
    intro cs cur hlen
    cases cs with
    | nil =>
      simp only [splitlinesGo]
      split
      · rename_i hcur
        simp [List.isEmpty_iff.mp hcur]
      · simp
    | cons c rest =>
      rw [splitlinesGo.eq_def]
      dsimp only
      simp only [List.length_cons] at hlen
      by_cases hb : pyIsLineBreak c
      · rw [if_pos hb]
        cases rest with
        | nil => simp [List.filter_cons, hb]
        | cons c2 rest2 =>
          dsimp only
          simp only [List.length_cons] at hlen
          by_cases hcrlf : c = '\r' ∧ c2 = '\n'
          · rw [if_pos hcrlf]
            have h2 : pyIsLineBreak c2 = true := by rw [hcrlf.2]; rfl
            simp only [List.flatten_cons, ih rest2 [] (by omega)]
            simp [List.filter_cons, hb, h2]
          · rw [if_neg hcrlf]
            simp only [List.flatten_cons, ih (c2 :: rest2) [] (by simp; omega)]
            simp [List.filter_cons, hb]
      · rw [if_neg hb]
        rw [ih rest (c :: cur) (by omega)]
        simp [List.filter_cons, hb, List.append_assoc]

theorem splitlinesGo_flatten (cs cur : List Char) :
    (splitlinesGo cs cur).flatten =
      cur.reverse ++ cs.filter (fun c => !pyIsLineBreak c) :=
  splitlinesGo_flatten_aux cs.length cs cur le_rfl

theorem pySplitlines_flatten (s : String) :
    ((pySplitlines s).map String.data).flatten =
      s.data.filter (fun c => !pyIsLineBreak c) := by
  unfold pySplitlines
  rw [List.map_map]
  have hmap : (String.data ∘ fun l : List Char => (⟨l⟩ : String)) = id := by
    funext l
    rfl
  rw [hmap, List.map_id]
  simpa using splitlinesGo_flatten s.data []

theorem wrapCore_join_data (widthOf : String → ℚ) (text : String) (mw : Option ℚ) :
    ((wrapCore widthOf text mw).map String.data).flatten =
      text.data.filter (fun c => !pyIsLineBreak c) := by
  have hraw : (((let ls := pySplitlines text; if ls.isEmpty then [""] else ls) :
      List String).map String.data).flatten =
      text.data.filter (fun c => !pyIsLineBreak c) := by
    dsimp only
    split
    · rename_i hnil
      have h0 := pySplitlines_flatten text
      rw [List.isEmpty_iff.mp hnil] at h0
      simp only [List.map_nil, List.flatten_nil] at h0
      simp [← h0]
    · exact pySplitlines_flatten text
  unfold wrapCore
  match mw with
  | none => exact hraw
  | some mwv =>
    dsimp only
    split
    · exact hraw
    · rw [← hraw]
      generalize (let ls := pySplitlines text; if ls.isEmpty then [""] else ls) = rawLines
      induction rawLines with
      | nil => simp
      | cons hd tl ihr =>
        simp only [List.flatMap_cons, List.map_append, List.flatten_append,
          List.map_cons, List.flatten_cons]
        rw [ihr, wrapOneLine_data]

/-! ## Wide-character own-line lemmas (C5, second part) -/

theorem wrapFold_wide (w : String → ℚ) (mw : ℚ)
    (hmono : ∀ s t : String, s.data.Sublist t.data → w s ≤ w t) :
    ∀ (cs : List Char) (acc : List String) (cur : String),
      (∀ l ∈ acc, ∀ c : Char, mw < w ⟨[c]⟩ → c ∈ l.data → l = ⟨[c]⟩) →
      (∀ c : Char, mw < w ⟨[c]⟩ → c ∈ cur.data → cur = ⟨[c]⟩) →
      ∀ l ∈ ((cs.foldl (wrapStep w mw) (acc, cur)).1 ++
          [(cs.foldl (wrapStep w mw) (acc, cur)).2]),
        ∀ c : Char, mw < w ⟨[c]⟩ → c ∈ l.data → l = ⟨[c]⟩ := by
  intro cs
  induction cs with
  | nil =>
    intro acc cur hacc hcur l hl
    simp only [List.foldl_nil] at hl
    rcases List.mem_append.mp hl with h | h
    · exact hacc l h
    · rw [List.mem_singleton.mp h]
      exact hcur
  | cons ch cs' ih =>
    intro acc cur hacc hcur
    simp only [List.foldl_cons]
    have hpair : wrapStep w mw (acc, cur) ch =
        ((wrapStep w mw (acc, cur) ch).1, (wrapStep w mw (acc, cur) ch).2) := rfl
    rw [hpair]
    apply ih
    · -- the new accumulator satisfies the invariant
      intro l hl d hd hdl
      simp only [wrapStep] at hl
      split at hl
      · exact hacc l hl d hd hdl
      · dsimp only at hl
        rcases List.mem_append.mp hl with h | h
        · exact hacc l h d hd hdl
        · rw [List.mem_singleton.mp h] at hdl ⊢
          exact hcur d hd hdl
    · -- the new current line satisfies the invariant
      intro d hd hdl
      simp only [wrapStep] at hdl ⊢
      by_cases hcond : w (cur.push ch) ≤ mw ∨ cur = ""
      · rw [if_pos hcond] at hdl ⊢
        dsimp only at hdl ⊢
        by_cases hce : cur = ""
        · subst hce
          have hpush : (("" : String).push ch) = (⟨[ch]⟩ : String) := rfl
          rw [hpush] at hdl ⊢
          have hd2 : d = ch := List.mem_singleton.mp hdl
          rw [hd2]
        · have hwle : w (cur.push ch) ≤ mw := hcond.resolve_right hce
          exfalso
          have hsub : ([d] : List Char).Sublist (cur.push ch).data :=
            List.singleton_sublist.mpr hdl
          have hmono2 := hmono ⟨[d]⟩ (cur.push ch) hsub
          exact absurd hd (not_lt.mpr (le_trans hmono2 hwle))
      · rw [if_neg hcond] at hdl ⊢
        dsimp only at hdl ⊢
        have hd2 : d = ch := List.mem_singleton.mp hdl
        rw [hd2]

theorem effWidth_none_mono (fs : ℚ) (hfs : 0 ≤ fs) :
    ∀ s t : String, s.data.Sublist t.data →
      effectiveWidth (fun _ => none) fs s ≤ effectiveWidth (fun _ => none) fs t := by
  intro s t h
  simp only [effectiveWidth]
  have hlen : (s.length : ℚ) ≤ (t.length : ℚ) := by
    have h2 : s.length ≤ t.length := h.length_le
    exact_mod_cast h2
  have h35 : (0 : ℚ) ≤ 3 / 5 := by norm_num
  exact mul_le_mul_of_nonneg_right (mul_le_mul_of_nonneg_right hlen hfs) h35

/-- C5: `wrap_text_lines` never drops characters — concatenating all returned lines
reproduces the input text with its line-break characters removed (for any metric,
font size and max width); and, when wrapping is active (positive max width) and the
effective width function is monotone under sublists, a single character wider than
`max_width` always occupies a line of its own. -/
theorem C5_wrap_never_drops (sw : String → Option ℚ) (fs : ℚ) (text : String)
    (mw : Option ℚ) :
    strJoin (wrap_text_lines sw fs text mw) =
      ⟨text.data.filter (fun c => !pyIsLineBreak c)⟩ ∧
    (∀ mwv : ℚ, mw = some mwv → 0 < mwv →
      (∀ s t : String, s.data.Sublist t.data →
        effectiveWidth sw fs s ≤ effectiveWidth sw fs t) →
      ∀ c : Char, mwv < effectiveWidth sw fs ⟨[c]⟩ →
        ∀ line ∈ wrap_text_lines sw fs text mw, c ∈ line.data → line = ⟨[c]⟩) := by
  constructor
  · unfold strJoin wrap_text_lines
    rw [wrapCore_join_data]
  · intro mwv hmw hpos hmono c hc line hline hcl
    subst hmw
    unfold wrap_text_lines wrapCore at hline
    dsimp only at hline
    rw [if_neg (not_le.mpr hpos)] at hline
    obtain ⟨raw, hraw, hline2⟩ := List.mem_flatMap.mp hline
    unfold wrapOneLine at hline2
    dsimp only at hline2
    exact wrapFold_wide (effectiveWidth sw fs) mwv hmono raw.data [] ""
      (fun l hl => absurd hl (List.not_mem_nil l))
      (fun d _ hdl => absurd hdl (List.not_mem_nil d))
      line hline2 c hc hcl

theorem C5_witness :
    strJoin (wrap_text_lines (fun _ => none) 10 "中b" (some 5)) =
      ⟨("中b".data.filter (fun c => !pyIsLineBreak c))⟩ ∧
    ((0 : ℚ) < 5 ∧ 5 < effectiveWidth (fun _ => none) 10 ⟨['中']⟩) ∧
    ∀ line ∈ wrap_text_lines (fun _ => none) 10 "中b" (some 5),
      '中' ∈ line.data → line = ⟨['中']⟩ := by
  refine ⟨(C5_wrap_never_drops (fun _ => none) 10 "中b" (some 5)).1,
    ⟨by norm_num, by decide⟩, ?_⟩
  exact (C5_wrap_never_drops (fun _ => none) 10 "中b" (some 5)).2 5 rfl (by norm_num)
    (effWidth_none_mono 10 (by norm_num)) '中' (by decide)

/-! ## Fill-plan evaluation lemmas (C1) -/

theorem split_aliases_clean (kw : String) (hclean : pyStrip kw = kw) (hne : kw ≠ "")
    (hsep : kw.data.contains '|' = false) : split_aliases kw = [kw] := by
  unfold split_aliases
  dsimp only
  rw [hsep]
  simp [hclean, hne, dedupAppend]

theorem buildCandidates_empty (kw : String) :
    buildCandidates kw emptyOverride none = split_aliases kw := rfl

theorem findKeywordHit_eval (w h : ℚ) (chars : List Character) (kw : String)
    (thr : ℚ) (s e : Nat) (bbox : Rect)
    (hbfw : best_fuzzy_window chars kw thr = some (s, e))
    (hbbox : bbox_of_chars chars s e = some bbox) :
    findKeywordHit [⟨w, h, chars⟩] kw 0 thr =
      some ⟨0, bbox, bbox.x1 + STYLE_OFFSET_X_DEFAULT,
        h - (bbox.bottom + STYLE_OFFSET_Y_DEFAULT)⟩ := by
  unfold findKeywordHit
  rw [if_neg (by norm_num)]
  have hpage : ([⟨w, h, chars⟩] : List PageData).getD (0 : Int).toNat default
      = ⟨w, h, chars⟩ := rfl
  rw [hpage]
  dsimp only
  rw [hbfw]
  dsimp only
  rw [hbbox]
  rfl

/-- C1 counterexample: the original claim fails as stated. The keyword `"a   b"`
appears verbatim and contiguously in the page's character stream (chars `"a"`,
`" "`, `" "`, `" "`, `"b"`) at a known bounding box and is mapped to the
non-empty value `"v"`, yet `fill_by_keywords` at threshold `0.6` produces no
`DrawItem` at all and records the keyword as missing (matched count 0, missing
count 1): per-character normalisation strips the three interior spaces, the only
length-5 window of the normalised stream joins to `"ab"`, and the ratio
`2*2/(5+2) = 4/7 < 3/5` rejects the match. -/
theorem C1_cex_verbatim_space :
    strJoin (([⟨"a", 0, 1, 0, 1⟩, ⟨" ", 1, 2, 0, 1⟩, ⟨" ", 2, 3, 0, 1⟩,
        ⟨" ", 3, 4, 0, 1⟩, ⟨"b", 4, 5, 0, 1⟩] : List Character).map Character.text)
      = "a   b" ∧
    ("v" : String) ≠ "" ∧
    fillByKeywordsPlan [⟨100, 200, [⟨"a", 0, 1, 0, 1⟩, ⟨" ", 1, 2, 0, 1⟩,
        ⟨" ", 2, 3, 0, 1⟩, ⟨" ", 3, 4, 0, 1⟩, ⟨"b", 4, 5, 0, 1⟩]⟩]
      [("a   b", "v")] [] none (some (3 / 5)) = ⟨[], 1, [], ["a   b"]⟩ := by
  refine ⟨by decide, by decide, by decide⟩

/-- C1 (amended): verbatim presence of the raw keyword characters is not enough
(a keyword character that normalises away desynchronises the fixed-length search
window, see the counterexample, and a `|` in the keyword triggers alias
splitting). For a single-page document and a keyword that is strip-invariant,
free of the alias separator `|` and of non-empty normalised form, such that some
window of the page's per-character-normalised stream concatenates exactly to the
normalised keyword, `fill_by_keywords` with that keyword mapped to a non-empty
value at threshold `0.6`, no overrides and no page selection produces exactly
one `DrawItem`, on that page, anchored at `bbox.x1 + 50` and
`page_height - bbox.bottom` (drawing coordinates) where `bbox` is the matched
window's box, with matched count 1 and missing count 0. -/
theorem C1_fill_normwindow_single_drawitem (w h : ℚ) (chars : List Character)
    (kw value : String) (hv : value ≠ "")
    (hclean : pyStrip kw = kw) (hsep : kw.data.contains '|' = false)
    (hnk : (normalize_text kw).length ≠ 0) (i : Nat)
    (hiL : i + (normalize_text kw).length ≤ chars.length)
    (hwin : windowJoin (chars.map fun c => normalize_text c.text) i
      (normalize_text kw).length = normalize_text kw) :
    ∃ s bbox,
      best_fuzzy_window chars kw (3 / 5) = some (s, s + (normalize_text kw).length) ∧
      bbox_of_chars chars s (s + (normalize_text kw).length) = some bbox ∧
      fillByKeywordsPlan [⟨w, h, chars⟩] [(kw, value)] [] none (some (3 / 5)) =
        ⟨[((0 : Int), ⟨value, bbox.x1 + 50, h - bbox.bottom, none, none⟩)],
          1, [kw], []⟩ := by
  have hne : kw ≠ "" := fun hk => hnk (by rw [hk]; rfl)
  obtain ⟨s, hbfw, hbound, hjoin⟩ :=
    bfw_exact_core chars kw (3 / 5) (by norm_num) hnk i hiL hwin
  have hsome := bbox_of_chars_isSome chars s (s + (normalize_text kw).length)
    (by omega) hbound
  obtain ⟨bbox, hbbox⟩ := Option.isSome_iff_exists.mp hsome
  refine ⟨s, bbox, hbfw, hbbox, ?_⟩
  have hhit := findKeywordHit_eval w h chars kw (3 / 5) s
    (s + (normalize_text kw).length) bbox hbfw hbbox
  have hro : resolveOverrideForKey kw [] = (none, emptyOverride) := rfl
  have hcand : buildCandidates kw emptyOverride none = [kw] := by
    rw [buildCandidates_empty, split_aliases_clean kw hclean hne hsep]
  unfold fillByKeywordsPlan
  dsimp only
  simp only [List.foldl_cons, List.foldl_nil]
  unfold processKey
  rw [if_neg hv]
  dsimp only
  rw [hro]
  dsimp only
  rw [hcand]
  have hlen1 : ([⟨w, h, chars⟩] : List PageData).length = 1 := rfl
  rw [hlen1]
  have hpages : candidatePagesFor emptyOverride (resolveSelectedPages none 1)
      (emptyOverride.page.getD CONST_PAGE_INDEX_DEFAULT) = [(0 : Int)] := rfl
  rw [hpages]
  have hthr : (some ((3 : ℚ) / 5)).getD CONST_FUZZY_MATCH_THRESHOLD = 3 / 5 := rfl
  rw [hthr]
  have hsearch : firstHitPages [⟨w, h, chars⟩] [kw] [(0 : Int)] (3 / 5) =
      some (0, ⟨0, bbox, bbox.x1 + STYLE_OFFSET_X_DEFAULT,
        h - (bbox.bottom + STYLE_OFFSET_Y_DEFAULT)⟩) := by
    unfold firstHitPages
    simp [List.findSome?_cons, hhit]
  rw [hsearch]
  dsimp only
  unfold adjust_coords emptyFillAcc
  simp only [List.nil_append]
  have hx : bbox.x1 + STYLE_OFFSET_X_DEFAULT +
      (emptyOverride.offset_x.getD STYLE_OFFSET_X_DEFAULT - STYLE_OFFSET_X_DEFAULT) =
      bbox.x1 + 50 := by
    simp [emptyOverride, STYLE_OFFSET_X_DEFAULT]
  have hy : h - (bbox.bottom + STYLE_OFFSET_Y_DEFAULT) +
      (emptyOverride.offset_y.getD STYLE_OFFSET_Y_DEFAULT - STYLE_OFFSET_Y_DEFAULT) =
      h - bbox.bottom := by
    simp [emptyOverride, STYLE_OFFSET_Y_DEFAULT]
  rw [hx, hy]
  rfl

theorem C1_witness :
    ("7" : String) ≠ "" ∧
    ∃ s bbox,
      best_fuzzy_window [⟨"N", 0, 10, 0, 12⟩, ⟨":", 10, 14, 0, 12⟩] "N:" (3 / 5) =
        some (s, s + (normalize_text "N:").length) ∧
      bbox_of_chars [⟨"N", 0, 10, 0, 12⟩, ⟨":", 10, 14, 0, 12⟩] s
        (s + (normalize_text "N:").length) = some bbox ∧
      fillByKeywordsPlan [⟨100, 200, [⟨"N", 0, 10, 0, 12⟩, ⟨":", 10, 14, 0, 12⟩]⟩]
          [("N:", "7")] [] none (some (3 / 5)) =
        ⟨[((0 : Int), ⟨"7", bbox.x1 + 50, 200 - bbox.bottom, none, none⟩)],
          1, ["N:"], []⟩ :=
  ⟨by decide,
    C1_fill_normwindow_single_drawitem 100 200 [⟨"N", 0, 10, 0, 12⟩, ⟨":", 10, 14, 0, 12⟩]
      "N:" "7" (by decide) (by decide) (by decide) (by decide) 0 (by decide) (by decide)⟩
